import Mathlib

/-!
Consistent-hashing ring (`main.go`).

A shallow embedding of the ring of `main.go` and the properties of its
`Add`, `Remove`, `Get` and `search` operations.

Modelling conventions.

* Go `int` is the 64-bit two's-complement integer: values are `Int`, and the one
  product the program computes (`c.numReps * node.Weight`) is wrapped by `wrapInt`.
* Go `uint32` hash values are `Nat`.
* Go `string` is `String`; `[]byte(s)` is the UTF-8 encoding of `s`.
* Go `map[K]V` is a finite map `Finmap`: `m[k] = v` is `Finmap.insert`,
  `delete(m, k)` is `Finmap.erase`, `_, ok := m[k]` is `mapHas`, and the
  value of the expression `m[k]` is `mapIndex` (the zero value when `k` is absent).
* A slice index out of range is a run-time panic: `Get` returns `none` there.
* The mutex only serialises callers; the operations are modelled as sequential
  state transformers.
-/

namespace Consistent

/-! ## Library functions used by the program -/

/-- One shift step of the reflected CRC-32 (IEEE polynomial `0xEDB88320`). -/
def crc32Bit (crc : Nat) : Nat :=
  if crc % 2 = 1 then (crc / 2) ^^^ 0xEDB88320 else crc / 2

/-- Feed one byte into the CRC register: xor it in, then eight shift steps. -/
def crc32Byte (crc b : Nat) : Nat :=
  crc32Bit (crc32Bit (crc32Bit (crc32Bit (crc32Bit (crc32Bit (crc32Bit (crc32Bit (crc ^^^ b))))))))

/-- Go `crc32.ChecksumIEEE`: register initialised to all ones, final complement. -/
def ChecksumIEEE (data : List Nat) : Nat :=
  (data.foldl crc32Byte 0xFFFFFFFF) ^^^ 0xFFFFFFFF

/-- Go `[]byte(s)`: the UTF-8 bytes of a string. -/
def bytes (s : String) : List Nat :=
  (s.data.flatMap String.utf8EncodeChar).map UInt8.toNat

/-- Go `strconv.Itoa`: the decimal form of an integer, with a leading `-` when negative. -/
def Itoa (i : Int) : String := toString i

/-- Wrap-around of 64-bit signed arithmetic (Go `int`). -/
def wrapInt (x : Int) : Int := (x + 2 ^ 63) % 2 ^ 64 - 2 ^ 63

/-- The loop of Go `sort.Search`: `for i < j { h := (i+j)/2; if !f(h) { i = h+1 } else { j = h } }`.
The first argument bounds the number of iterations. -/
def searchLoop (f : Nat → Bool) : Nat → Nat → Nat → Nat
  | 0, i, _ => i
  | fuel + 1, i, j =>
    if i < j then
      let h := (i + j) / 2
      if !f h then searchLoop f fuel (h + 1) j else searchLoop f fuel i h
    else i

/-- Go `sort.Search(n, f)`: binary search on `[0, n)`. The interval `[i, j)` shrinks at
every iteration, so `n` iterations are enough (`searchLoop_spec`). -/
def sortSearch (n : Nat) (f : Nat → Bool) : Nat := searchLoop f n 0 n

/-- Go `_, ok := m[k]`: whether the key is present. -/
def mapHas {K : Type} {V : Type} [DecidableEq K] (m : Finmap (fun _ : K => V)) (k : K) : Bool :=
  (Finmap.lookup k m).isSome

/-- Go `m[k]` as an expression: the bound value, or the zero value when absent. -/
def mapIndex {K : Type} {V : Type} [DecidableEq K] [Inhabited V]
    (m : Finmap (fun _ : K => V)) (k : K) : V :=
  (Finmap.lookup k m).getD default

/-! ## Data model -/

/-- The constant `DEFAULT_REPLICAS`. -/
def DEFAULT_REPLICAS : Int := 160

/-- The type `HashRing []uint32`. -/
abbrev HashRing := List Nat

/-- The struct `Node`. -/
structure Node where
  ID : Int
  IP : String
  Port : Int
  HostName : String
  Weight : Int
  deriving DecidableEq, Repr

/-- The zero value of `Node`. -/
instance : Inhabited Node := ⟨⟨0, "", 0, "", 0⟩⟩

/-- The constructor `NewNode`. -/
def NewNode (id : Int) (ip : String) (port : Int) (name : String) (weight : Int) : Node :=
  { ID := id, IP := ip, Port := port, HostName := name, Weight := weight }

end Consistent

/-- The struct `Consistent` (the embedded mutex carries no data). -/
structure Consistent where
  Nodes : Finmap (fun _ : Nat => Consistent.Node)
  numReps : Int
  Resources : Finmap (fun _ : Int => Bool)
  ring : Consistent.HashRing

namespace Consistent

/-- The constructor `NewConsistent`. -/
def NewConsistent : Consistent :=
  { Nodes := ∅, numReps := DEFAULT_REPLICAS, Resources := ∅, ring := [] }

/-- The method `joinStr`: `IP + "*" + Itoa(Weight) + "-" + Itoa(i) + "-" + Itoa(ID)`. -/
def joinStr (i : Int) (node : Node) : String :=
  node.IP ++ "*" ++ Itoa node.Weight ++ "-" ++ Itoa i ++ "-" ++ Itoa node.ID

/-- The method `hashStr`: `crc32.ChecksumIEEE([]byte(key))`. -/
def hashStr (key : String) : Nat := ChecksumIEEE (bytes key)

/-- The method `sortHashRing`: collect the keys of `Nodes` (in the unspecified order of a
map range) and sort them ascending. The keys of a map are distinct, so the result is the
same for every order of collection; `Finset.sort` is a merge sort of any enumeration. -/
def sortHashRing (c : Consistent) : Consistent :=
  { c with ring := c.Nodes.keys.sort (· ≤ ·) }

/-- The value of `count := c.numReps * node.Weight` in `Add` and `Remove`. -/
def replicaCount (c : Consistent) (node : Node) : Int :=
  wrapInt (c.numReps * node.Weight)

/-- The loop of `Add`: `for i := 0; i < count; i++ { c.Nodes[hashStr(joinStr(i, node))] = *node }`. -/
def addLoop (node : Node) (count : Int) (nodes : Finmap (fun _ : Nat => Node)) :
    Finmap (fun _ : Nat => Node) :=
  (List.range count.toNat).foldl
    (fun m (i : Nat) => Finmap.insert (hashStr (joinStr (i : Int) node)) node m) nodes

/-- The loop of `Remove`: `for i := 0; i < count; i++ { delete(c.Nodes, hashStr(joinStr(i, node))) }`. -/
def removeLoop (node : Node) (count : Int) (nodes : Finmap (fun _ : Nat => Node)) :
    Finmap (fun _ : Nat => Node) :=
  (List.range count.toNat).foldl
    (fun m (i : Nat) => Finmap.erase (hashStr (joinStr (i : Int) node)) m) nodes

/-- The method `Add`: the new state and the returned boolean. -/
def Add (c : Consistent) (node : Node) : Consistent × Bool :=
  if mapHas c.Resources node.ID then (c, false)
  else
    let count := replicaCount c node
    let c1 := { c with Nodes := addLoop node count c.Nodes }
    let c2 := { c1 with Resources := Finmap.insert node.ID true c1.Resources }
    (sortHashRing c2, true)

/-- The method `search`. The result is a Go `int`: it is `-1` on an empty ring. -/
def search (c : Consistent) (hash : Nat) : Int :=
  let i := sortSearch c.ring.length (fun i => decide (c.ring.getD i 0 ≥ hash))
  if i < c.ring.length then
    if (i : Int) = (c.ring.length : Int) - 1 then 0 else (i : Int)
  else (c.ring.length : Int) - 1

/-- Go slice indexing `ring[i]`: `none` stands for the index-out-of-range panic. -/
def sliceIndex (ring : HashRing) (i : Int) : Option Nat :=
  if 0 ≤ i ∧ i < (ring.length : Int) then some (ring.getD i.toNat 0) else none

/-- The method `Get`: `c.Nodes[c.ring[c.search(c.hashStr(key))]]`, `none` when indexing panics. -/
def Get (c : Consistent) (key : String) : Option Node :=
  let hash := hashStr key
  let i := search c hash
  (sliceIndex c.ring i).map (fun k => mapIndex c.Nodes k)

/-- The method `Remove`. -/
def Remove (c : Consistent) (node : Node) : Consistent :=
  if !mapHas c.Resources node.ID then c
  else
    let c1 := { c with Resources := Finmap.erase node.ID c.Resources }
    let count := replicaCount c1 node
    let c2 := { c1 with Nodes := removeLoop node count c1.Nodes }
    sortHashRing c2

/-- States reachable from `NewConsistent` by calls of `Add` and `Remove`. -/
inductive Reachable : Consistent → Prop
  | init : Reachable NewConsistent
  | add (c : Consistent) (node : Node) : Reachable c → Reachable (Add c node).1
  | remove (c : Consistent) (node : Node) : Reachable c → Reachable (Remove c node)

/-- The hash of the virtual key of replica `i` of a node. -/
def virtualHash (node : Node) (i : Nat) : Nat := hashStr (joinStr (i : Int) node)

/-- The first node that `main` registers. -/
def node0 : Node := NewNode 0 "172.18.1.0" 8080 "host_0" 1

/-- The second node that `main` registers. -/
def node1 : Node := NewNode 1 "172.18.1.1" 8080 "host_1" 1

/-- The fourth node that `main` registers. -/
def node3 : Node := NewNode 3 "172.18.1.3" 8080 "host_3" 1

/-- The ring after `Add(node0)` on a new ring. -/
def ring0 : Consistent := (Add NewConsistent node0).1

/-- The ring after `Add(node0); Add(node1)` on a new ring. -/
def ring01 : Consistent := (Add ring0 node1).1

/-- A node whose virtual key of replica `5`, `192.2.96.140*1-5-2`, has the CRC-32 of
the virtual key `172.18.1.0*1-7-0` of replica `7` of `node0`. -/
def nodeX : Node := NewNode 2 "192.2.96.140" 8080 "host_2" 1

/-- A node whose weight makes `160 * Weight` overflow the 64-bit `int` to `0`. -/
def heavyNode : Node := NewNode 1 "172.18.1.1" 8080 "host_1" (2 ^ 62)

/-- A three-entry ring state, for lookups by hand. -/
def smallRing : Consistent :=
  { Nodes := Finmap.insert 4290000000 node3
      (Finmap.insert 2000000000 node1 (Finmap.insert 5 node0 ∅)),
    numReps := DEFAULT_REPLICAS,
    Resources := ∅,
    ring := [5, 2000000000, 4290000000] }

/-- The virtual hashes visited by a loop of `count` iterations over a node. -/
def virtualHashes (node : Node) (count : Int) : List Nat :=
  (List.range count.toNat).map (virtualHash node)

/-- The ring after `Add(node0); Add(node1); Add(node3)` on a new ring. -/
def ring013 : Consistent := (Add ring01 node3).1

/-- The sorted sequence agrees with the mapping: it is the ascending list of the keys of
`Nodes`, as `sortHashRing` leaves it. -/
def RingOk (c : Consistent) : Prop := c.ring = c.Nodes.keys.sort (· ≤ ·)

/-- The node `node0` with weight 2 in place of 1. -/
def node0w2 : Node := { node0 with Weight := 2 }

/-- A node of negative weight whose count `160 * Weight` wraps around to `160`. -/
def negNode : Node := NewNode 1 "172.18.1.1" 8080 "host_1" (1 - 2 ^ 62)

/-- A decimal digit character. -/
def IsDigit (c : Char) : Prop := ∃ d : Nat, d < 10 ∧ c = Nat.digitChar d

/-- The number written by a list of decimal digits, most significant first. -/
def digitsVal (l : List Char) : Nat :=
  l.foldl (fun a c => 10 * a + (c.toNat - 48)) 0

/-- Histories of calls from `NewConsistent` in which every `Remove` of a registered ID passes
the node value that was added: `History hist live c` says that `c` is reached, `hist` lists
the nodes ever added (the arguments of the `Add` calls that returned `true`) and `live` the
node values that are currently registered. -/
inductive History : List Node → List Node → Consistent → Prop
  | init : History [] [] NewConsistent
  | add (hist live : List Node) (c : Consistent) (n : Node) :
      History hist live c → mapHas c.Resources n.ID = false →
      History (n :: hist) (n :: live) (Add c n).1
  | addRegistered (hist live : List Node) (c : Consistent) (n : Node) :
      History hist live c → mapHas c.Resources n.ID = true →
      History hist live (Add c n).1
  | remove (hist live : List Node) (c : Consistent) (n : Node) :
      History hist live c → n ∈ live →
      History hist (live.erase n) (Remove c n)
  | removeUnknown (hist live : List Node) (c : Consistent) (n : Node) :
      History hist live c → mapHas c.Resources n.ID = false →
      History hist live (Remove c n)

/-- The function `hashStr` is collision-free on the virtual keys of the nodes of a list
(the keys `joinStr(i, n)` with `0 <= i < 160 * n.Weight`, the count of `Add`): two of
these keys with the same hash are the same string. -/
def CollisionFree (nodes : List Node) : Prop :=
  ∀ a b : Node, a ∈ nodes → b ∈ nodes → ∀ i j : Int,
    0 ≤ i → i < replicaCount NewConsistent a → 0 ≤ j → j < replicaCount NewConsistent b →
    hashStr (joinStr i a) = hashStr (joinStr j b) → joinStr i a = joinStr j b

/-- The number of entries of `Nodes` bound to a node. -/
def boundCount (c : Consistent) (n : Node) : Nat :=
  (c.Nodes.keys.filter (fun k => Finmap.lookup k c.Nodes = some n)).card

/-- A node of weight `57646075230342349`, the smallest positive weight whose count
`160 * Weight` overflows the 64-bit `int` (it wraps around to a negative number). -/
def overflowNode : Node := NewNode 1 "172.18.1.1" 8080 "host_1" 57646075230342349

/-- The ring after `Add(node0); Add(nodeX); Remove(nodeX)` on a new ring. -/
def ringX : Consistent := Remove (Add ring0 nodeX).1 nodeX

/-! ## Binary search -/

theorem searchLoop_spec (f : Nat → Bool) (n : Nat)
    (hmono : ∀ a b, a ≤ b → b < n → f a = true → f b = true) :
    ∀ fuel i j, i ≤ j → j ≤ n → j - i ≤ fuel →
      (∀ k, k < i → f k = false) → (∀ k, j ≤ k → k < n → f k = true) →
      i ≤ searchLoop f fuel i j ∧ searchLoop f fuel i j ≤ j ∧
      (∀ k, k < searchLoop f fuel i j → f k = false) ∧
      (∀ k, searchLoop f fuel i j ≤ k → k < n → f k = true) := by
  intro fuel
  induction fuel with
  | zero =>
    intro i j hij _ hfuel hlo hhi
    have hji : j = i := by omega
    subst hji
    exact ⟨le_refl _, le_refl _, hlo, hhi⟩
  | succ fuel ih =>
    intro i j hij hjn hfuel hlo hhi
    unfold searchLoop
    by_cases hlt : i < j
    · simp only [hlt, if_true]
      have hmid1 : i ≤ (i + j) / 2 := by omega
      have hmid2 : (i + j) / 2 < j := by omega
      by_cases hf : f ((i + j) / 2) = true
      · simp only [hf, Bool.not_true, Bool.false_eq_true, if_false]
        have h := ih i ((i + j) / 2) hmid1 (by omega) (by omega) hlo
          (fun k hk hkn => hmono _ k hk hkn hf)
        exact ⟨h.1, by omega, h.2.2.1, h.2.2.2⟩
      · have hf2 : f ((i + j) / 2) = false := by simpa using hf
        simp only [hf2, Bool.not_false, if_true]
        have hlo2 : ∀ k, k < (i + j) / 2 + 1 → f k = false := by
          intro k hk
          by_contra hc
          have hk1 : f k = true := by simpa using hc
          have := hmono k ((i + j) / 2) (by omega) (by omega) hk1
          rw [hf2] at this
          exact Bool.noConfusion this
        have h := ih ((i + j) / 2 + 1) j (by omega) hjn (by omega) hlo2 hhi
        exact ⟨by omega, h.2.1, h.2.2.1, h.2.2.2⟩
    · simp only [hlt, if_false]
      have hji : j = i := by omega
      subst hji
      exact ⟨le_refl _, le_refl _, hlo, hhi⟩

theorem sortSearch_spec (f : Nat → Bool) (n : Nat)
    (hmono : ∀ a b, a ≤ b → b < n → f a = true → f b = true) :
    sortSearch n f ≤ n ∧ (∀ k, k < sortSearch n f → f k = false) ∧
      (∀ k, sortSearch n f ≤ k → k < n → f k = true) := by
  have h := searchLoop_spec f n hmono n 0 n (Nat.zero_le _) (le_refl _) (by omega)
    (fun k hk => absurd hk (Nat.not_lt_zero _)) (fun k hk hkn => absurd hkn (by omega))
  exact ⟨h.2.1, h.2.2.1, h.2.2.2⟩

/-- The binary search returns the lower bound `i` when the predicate is false below `i`
and true from `i` on. -/
theorem sortSearch_eq (f : Nat → Bool) (n i : Nat) (hi : i ≤ n)
    (hlo : ∀ k, k < i → f k = false) (hhi : ∀ k, i ≤ k → k < n → f k = true) :
    sortSearch n f = i := by
  have hmono : ∀ a b, a ≤ b → b < n → f a = true → f b = true := by
    intro a b hab hbn ha
    by_cases hai : a < i
    · rw [hlo a hai] at ha
      exact Bool.noConfusion ha
    · exact hhi b (by omega) hbn
  obtain ⟨h1, h2, h3⟩ := sortSearch_spec f n hmono
  by_contra hne
  rcases Nat.lt_or_gt_of_ne hne with hlt | hgt
  · have := h3 (sortSearch n f) (le_refl _) (by omega)
    rw [hlo _ hlt] at this
    exact Bool.noConfusion this
  · have hin : i < n := by omega
    have := hhi i (le_refl _) hin
    rw [h2 i hgt] at this
    exact Bool.noConfusion this

/-! ## Sorted slices -/

theorem getD_mem {r : List Nat} {i : Nat} (hi : i < r.length) : r.getD i 0 ∈ r := by
  rw [List.getD_eq_getElem r 0 hi]
  exact List.getElem_mem hi

theorem exists_getD_of_mem {r : List Nat} {x : Nat} (hx : x ∈ r) :
    ∃ i, i < r.length ∧ r.getD i 0 = x := by
  obtain ⟨i, hi, hxi⟩ := List.getElem_of_mem hx
  exact ⟨i, hi, by rw [List.getD_eq_getElem r 0 hi]; exact hxi⟩

theorem sorted_getD_le {r : List Nat} (hs : r.Sorted (· ≤ ·)) {i j : Nat} (hij : i ≤ j)
    (hj : j < r.length) : r.getD i 0 ≤ r.getD j 0 := by
  have hi : i < r.length := by omega
  rw [List.getD_eq_getElem r 0 hi, List.getD_eq_getElem r 0 hj]
  rcases Nat.eq_or_lt_of_le hij with h | h
  · subst h
    exact le_refl _
  · exact (List.pairwise_iff_getElem.mp hs) i j hi hj h

theorem sorted_getD_lt {r : List Nat} (hs : r.Sorted (· < ·)) {i j : Nat} (hij : i < j)
    (hj : j < r.length) : r.getD i 0 < r.getD j 0 := by
  have hi : i < r.length := by omega
  rw [List.getD_eq_getElem r 0 hi, List.getD_eq_getElem r 0 hj]
  exact (List.pairwise_iff_getElem.mp hs) i j hi hj hij

/-! ## The method `search` -/

/-- On an ascending ring, `sort.Search` finds the smallest index whose entry is `>= hash`. -/
theorem sortSearch_ring (r : List Nat) (hash i : Nat) (hasc : r.Sorted (· ≤ ·))
    (hi : i < r.length) (hge : hash ≤ r.getD i 0) (hmin : ∀ j, j < i → r.getD j 0 < hash) :
    sortSearch r.length (fun k => decide (r.getD k 0 ≥ hash)) = i := by
  apply sortSearch_eq _ _ _ (le_of_lt hi)
  · intro k hk
    have := hmin k hk
    simp only [ge_iff_le, decide_eq_false_iff_not, not_le]
    exact this
  · intro k hik hk
    have := sorted_getD_le hasc hik hk
    simp only [ge_iff_le, decide_eq_true_eq]
    omega

/-- When every entry is below the hash, `sort.Search` returns the length. -/
theorem sortSearch_ring_none (r : List Nat) (hash : Nat) (hlt : ∀ x, x ∈ r → x < hash) :
    sortSearch r.length (fun k => decide (r.getD k 0 ≥ hash)) = r.length := by
  apply sortSearch_eq _ _ _ (le_refl _)
  · intro k hk
    have := hlt _ (getD_mem hk)
    simp only [ge_iff_le, decide_eq_false_iff_not, not_le]
    exact this
  · intro k hik hk
    omega

theorem search_of_lower_bound (c : Consistent) (hash i : Nat) (hasc : c.ring.Sorted (· ≤ ·))
    (hi : i < c.ring.length) (hge : hash ≤ c.ring.getD i 0)
    (hmin : ∀ j, j < i → c.ring.getD j 0 < hash) :
    search c hash = if i + 1 = c.ring.length then 0 else (i : Int) := by
  unfold search
  simp only [sortSearch_ring c.ring hash i hasc hi hge hmin, hi, if_true]
  by_cases h : i + 1 = c.ring.length
  · have h2 : (i : Int) = (c.ring.length : Int) - 1 := by omega
    simp [h, h2]
  · have h2 : ¬ ((i : Int) = (c.ring.length : Int) - 1) := by omega
    simp [h, h2]

theorem search_of_no_lower_bound (c : Consistent) (hash : Nat)
    (hlt : ∀ x, x ∈ c.ring → x < hash) :
    search c hash = (c.ring.length : Int) - 1 := by
  unfold search
  simp only [sortSearch_ring_none c.ring hash hlt, lt_irrefl, if_false]

theorem sliceIndex_nat (r : List Nat) (i : Nat) (hi : i < r.length) :
    sliceIndex r (i : Int) = some (r.getD i 0) := by
  unfold sliceIndex
  have h : 0 ≤ (i : Int) ∧ (i : Int) < (r.length : Int) := ⟨by omega, by omega⟩
  simp [h]

theorem Get_of_search (c : Consistent) (key : String) (i : Nat) (hi : i < c.ring.length)
    (hs : search c (hashStr key) = (i : Int)) :
    Get c key = some (mapIndex c.Nodes (c.ring.getD i 0)) := by
  unfold Get
  simp only [hs, sliceIndex_nat c.ring i hi, Option.map_some']

/-! ## The loops of `Add` and `Remove` -/

theorem lookup_foldl_insert (node : Node) (l : List Nat) (m : Finmap (fun _ : Nat => Node))
    (k : Nat) :
    Finmap.lookup k (l.foldl (fun m (i : Nat) => Finmap.insert (hashStr (joinStr (i : Int) node)) node m) m)
      = if k ∈ l.map (virtualHash node) then some node else Finmap.lookup k m := by
  induction l generalizing m with
  | nil => simp
  | cons x l ih =>
    rw [List.foldl_cons, ih]
    by_cases hk : k ∈ l.map (virtualHash node)
    · have hk2 : k ∈ (x :: l).map (virtualHash node) := by
        rw [List.map_cons]
        exact List.mem_cons_of_mem _ hk
      rw [if_pos hk, if_pos hk2]
    · rw [if_neg hk]
      by_cases hx : k = virtualHash node x
      · have hk2 : k ∈ (x :: l).map (virtualHash node) := by
          rw [List.map_cons, hx]
          exact List.mem_cons_self _ _
        rw [if_pos hk2, hx]
        exact Finmap.lookup_insert m
      · have hk2 : k ∉ (x :: l).map (virtualHash node) := by
          rw [List.map_cons, List.mem_cons]
          exact fun h => h.elim hx hk
        rw [if_neg hk2]
        exact Finmap.lookup_insert_of_ne m hx

theorem lookup_foldl_erase (node : Node) (l : List Nat) (m : Finmap (fun _ : Nat => Node))
    (k : Nat) :
    Finmap.lookup k (l.foldl (fun m (i : Nat) => Finmap.erase (hashStr (joinStr (i : Int) node)) m) m)
      = if k ∈ l.map (virtualHash node) then none else Finmap.lookup k m := by
  induction l generalizing m with
  | nil => simp
  | cons x l ih =>
    rw [List.foldl_cons, ih]
    by_cases hk : k ∈ l.map (virtualHash node)
    · have hk2 : k ∈ (x :: l).map (virtualHash node) := by
        rw [List.map_cons]
        exact List.mem_cons_of_mem _ hk
      rw [if_pos hk, if_pos hk2]
    · rw [if_neg hk]
      by_cases hx : k = virtualHash node x
      · have hk2 : k ∈ (x :: l).map (virtualHash node) := by
          rw [List.map_cons, hx]
          exact List.mem_cons_self _ _
        rw [if_pos hk2, hx]
        exact Finmap.lookup_erase _ m
      · have hk2 : k ∉ (x :: l).map (virtualHash node) := by
          rw [List.map_cons, List.mem_cons]
          exact fun h => h.elim hx hk
        rw [if_neg hk2]
        exact Finmap.lookup_erase_ne hx

/-- The virtual hashes that a loop of `count` iterations visits. -/
theorem mem_virtual_iff (node : Node) (count : Int) (k : Nat) :
    k ∈ (List.range count.toNat).map (virtualHash node) ↔
      ∃ i : Nat, (i : Int) < count ∧ k = virtualHash node i := by
  rw [List.mem_map]
  constructor
  · rintro ⟨i, hi, rfl⟩
    rw [List.mem_range] at hi
    exact ⟨i, by omega, rfl⟩
  · rintro ⟨i, hi, rfl⟩
    exact ⟨i, List.mem_range.mpr (by omega), rfl⟩

theorem lookup_addLoop (node : Node) (count : Int) (m : Finmap (fun _ : Nat => Node)) (k : Nat) :
    Finmap.lookup k (addLoop node count m)
      = if k ∈ (List.range count.toNat).map (virtualHash node) then some node
        else Finmap.lookup k m :=
  lookup_foldl_insert node _ m k

theorem lookup_removeLoop (node : Node) (count : Int) (m : Finmap (fun _ : Nat => Node))
    (k : Nat) :
    Finmap.lookup k (removeLoop node count m)
      = if k ∈ (List.range count.toNat).map (virtualHash node) then none
        else Finmap.lookup k m :=
  lookup_foldl_erase node _ m k

/-! ## Unfolding `Add` and `Remove` -/

theorem Add_of_registered (c : Consistent) (n : Node) (h : mapHas c.Resources n.ID = true) :
    Add c n = (c, false) := by
  unfold Add
  rw [if_pos h]

theorem Add_of_new (c : Consistent) (n : Node) (h : mapHas c.Resources n.ID = false) :
    Add c n =
      ({ Nodes := addLoop n (replicaCount c n) c.Nodes,
         numReps := c.numReps,
         Resources := Finmap.insert n.ID true c.Resources,
         ring := (addLoop n (replicaCount c n) c.Nodes).keys.sort (· ≤ ·) }, true) := by
  unfold Add
  rw [if_neg (by rw [h]; exact Bool.false_ne_true)]
  rfl

theorem Remove_of_unknown (c : Consistent) (n : Node) (h : mapHas c.Resources n.ID = false) :
    Remove c n = c := by
  unfold Remove
  rw [h]
  rfl

theorem Remove_of_registered (c : Consistent) (n : Node) (h : mapHas c.Resources n.ID = true) :
    Remove c n =
      { Nodes := removeLoop n (replicaCount c n) c.Nodes,
        numReps := c.numReps,
        Resources := Finmap.erase n.ID c.Resources,
        ring := (removeLoop n (replicaCount c n) c.Nodes).keys.sort (· ≤ ·) } := by
  unfold Remove
  rw [h]
  rfl

theorem mapHas_iff_mem {K : Type} {V : Type} [DecidableEq K] (m : Finmap (fun _ : K => V))
    (k : K) : mapHas m k = true ↔ k ∈ m :=
  Finmap.lookup_isSome

theorem mapHas_insert_self (m : Finmap (fun _ : Int => Bool)) (k : Int) (b : Bool) :
    mapHas (Finmap.insert k b m) k = true := by
  unfold mapHas
  rw [Finmap.lookup_insert]
  rfl

theorem mapHas_erase_self (m : Finmap (fun _ : Int => Bool)) (k : Int) :
    mapHas (Finmap.erase k m) k = false := by
  unfold mapHas
  rw [Finmap.lookup_erase]
  rfl

/-! ## Claims on lookup -/

/-- C1: on an ascending ring, when `i` is the smallest index with `ring[i] >= hashStr(key)`,
`search` returns `0` if `i` is the last index and `i` otherwise, and `Get(key)` returns the
node bound to `ring[0]`, respectively to `ring[i]`. -/
theorem C1_successor_lookup (c : Consistent) (key : String) (i : Nat)
    (hasc : c.ring.Sorted (· ≤ ·)) (hi : i < c.ring.length)
    (hge : hashStr key ≤ c.ring.getD i 0)
    (hmin : ∀ j, j < i → c.ring.getD j 0 < hashStr key) :
    (i + 1 = c.ring.length →
      search c (hashStr key) = 0 ∧
      Get c key = some (mapIndex c.Nodes (c.ring.getD 0 0))) ∧
    (i + 1 ≠ c.ring.length →
      search c (hashStr key) = (i : Int) ∧
      Get c key = some (mapIndex c.Nodes (c.ring.getD i 0))) := by
  have hs := search_of_lower_bound c (hashStr key) i hasc hi hge hmin
  constructor
  · intro hlast
    rw [if_pos hlast] at hs
    exact ⟨hs, Get_of_search c key 0 (by omega) hs⟩
  · intro hnot
    rw [if_neg hnot] at hs
    exact ⟨hs, Get_of_search c key i hi hs⟩

/-- C1 at `smallRing`: the key `key0` (hash 1532712134) has its lower bound at index 1
and is served by the entry at index 1; the key `key15` (hash 4025886270) has its lower
bound at the last index 2 and is served by the entry at index 0. -/
theorem C1_successor_lookup_witness :
    (search smallRing (hashStr "key0") = 1 ∧ Get smallRing "key0" = some node1) ∧
    (search smallRing (hashStr "key15") = 0 ∧ Get smallRing "key15" = some node0) :=
  ⟨(C1_successor_lookup smallRing "key0" 1 (by decide) (by decide) (by decide)
      (by decide)).2 (by decide),
   (C1_successor_lookup smallRing "key15" 2 (by decide) (by decide) (by decide)
      (by decide)).1 (by decide)⟩

/-! ## Claims on `Add` and `Remove` -/

theorem virtualHash_of_int (n : Node) (i : Int) (h0 : 0 ≤ i) :
    hashStr (joinStr i n) = virtualHash n i.toNat := by
  unfold virtualHash
  rw [Int.toNat_of_nonneg h0]

theorem mem_virtual_of_int (n : Node) (count i : Int) (h0 : 0 ≤ i) (hi : i < count) :
    hashStr (joinStr i n) ∈ (List.range count.toNat).map (virtualHash n) := by
  rw [mem_virtual_iff]
  exact ⟨i.toNat, by omega, virtualHash_of_int n i h0⟩

theorem not_mem_virtual_of_int (n : Node) (count : Int) (k : Nat)
    (hk : ∀ i : Int, 0 ≤ i → i < count → k ≠ hashStr (joinStr i n)) :
    k ∉ (List.range count.toNat).map (virtualHash n) := by
  rw [mem_virtual_iff]
  rintro ⟨i, hi, rfl⟩
  exact hk (i : Int) (by omega) hi rfl

/-- C3: `Add` of a node whose ID is not registered returns `true`; afterwards the ID is
registered and every other ID is bound as before, every virtual hash
`hashStr(joinStr(i, n))` with `0 <= i < count` is bound to `n`, and every other hash has the
binding (or absence) it had before. `count` is the value of `numReps * n.Weight`. -/
theorem C3_add_postcondition (c : Consistent) (n : Node)
    (hnew : mapHas c.Resources n.ID = false) :
    (Add c n).2 = true ∧
    (mapHas (Add c n).1.Resources n.ID = true ∧
      ∀ id : Int, id ≠ n.ID →
        Finmap.lookup id (Add c n).1.Resources = Finmap.lookup id c.Resources) ∧
    (∀ i : Int, 0 ≤ i → i < replicaCount c n →
      Finmap.lookup (hashStr (joinStr i n)) (Add c n).1.Nodes = some n) ∧
    (∀ k : Nat, (∀ i : Int, 0 ≤ i → i < replicaCount c n → k ≠ hashStr (joinStr i n)) →
      Finmap.lookup k (Add c n).1.Nodes = Finmap.lookup k c.Nodes) := by
  rw [Add_of_new c n hnew]
  refine ⟨rfl, ⟨mapHas_insert_self _ _ _, ?_⟩, ?_, ?_⟩
  · intro id hid
    exact Finmap.lookup_insert_of_ne _ hid
  · intro i h0 hi
    show Finmap.lookup _ (addLoop n (replicaCount c n) c.Nodes) = some n
    rw [lookup_addLoop, if_pos (mem_virtual_of_int n _ i h0 hi)]
  · intro k hk
    show Finmap.lookup k (addLoop n (replicaCount c n) c.Nodes) = _
    rw [lookup_addLoop, if_neg (not_mem_virtual_of_int n _ k hk)]

theorem mapHas_new_ring (id : Int) : mapHas NewConsistent.Resources id = false := by
  unfold mapHas NewConsistent
  rw [Finmap.lookup_empty]
  rfl

theorem mapHas_ring0 : mapHas ring0.Resources node0.ID = true := by
  unfold ring0
  rw [Add_of_new _ _ (mapHas_new_ring _)]
  exact mapHas_insert_self _ _ _

/-- C3 at the first `Add` of `main`: `node0` on a new ring; replica 7 is bound to `node0`. -/
theorem C3_add_postcondition_witness :
    (Add NewConsistent node0).2 = true ∧
    Finmap.lookup (hashStr (joinStr 7 node0)) (Add NewConsistent node0).1.Nodes = some node0 :=
  ⟨(C3_add_postcondition NewConsistent node0 (mapHas_new_ring _)).1,
   (C3_add_postcondition NewConsistent node0 (mapHas_new_ring _)).2.2.1 7 (by decide)
     (by decide)⟩

/-- C4: `Add` of a node whose ID is already registered returns `false` and leaves the whole
state (`Nodes`, `Resources`, the sorted sequence) as it was, whatever the other fields of
the node are. -/
theorem C4_duplicate_add_rejected (c : Consistent) (n : Node)
    (hreg : mapHas c.Resources n.ID = true) :
    (Add c n).2 = false ∧ (Add c n).1 = c ∧
    (Add c n).1.Nodes = c.Nodes ∧ (Add c n).1.Resources = c.Resources ∧
    (Add c n).1.ring = c.ring := by
  rw [Add_of_registered c n hreg]
  exact ⟨rfl, rfl, rfl, rfl, rfl⟩

/-- C4 at the ring holding `node0`, for a node with the same ID and other fields. -/
theorem C4_duplicate_add_rejected_witness :
    (Add ring0 (NewNode 0 "10.0.0.9" 9090 "other" 3)).2 = false ∧
    (Add ring0 (NewNode 0 "10.0.0.9" 9090 "other" 3)).1 = ring0 :=
  ⟨(C4_duplicate_add_rejected ring0 (NewNode 0 "10.0.0.9" 9090 "other" 3) mapHas_ring0).1,
   (C4_duplicate_add_rejected ring0 (NewNode 0 "10.0.0.9" 9090 "other" 3) mapHas_ring0).2.1⟩

/-- C5: `Remove` of a node whose ID is registered unregisters the ID and keeps every other
ID, leaves no virtual hash `hashStr(joinStr(i, n))` with `0 <= i < count` among the keys of
`Nodes`, keeps the binding of every other hash, and leaves as sorted sequence the strictly
ascending list of the remaining keys of `Nodes`. -/
theorem C5_remove_postcondition (c : Consistent) (n : Node)
    (hreg : mapHas c.Resources n.ID = true) :
    (mapHas (Remove c n).Resources n.ID = false ∧
      ∀ id : Int, id ≠ n.ID →
        Finmap.lookup id (Remove c n).Resources = Finmap.lookup id c.Resources) ∧
    (∀ i : Int, 0 ≤ i → i < replicaCount c n →
      Finmap.lookup (hashStr (joinStr i n)) (Remove c n).Nodes = none) ∧
    (∀ k : Nat, (∀ i : Int, 0 ≤ i → i < replicaCount c n → k ≠ hashStr (joinStr i n)) →
      Finmap.lookup k (Remove c n).Nodes = Finmap.lookup k c.Nodes) ∧
    ((Remove c n).ring.Sorted (· < ·) ∧
      ∀ k : Nat, k ∈ (Remove c n).ring ↔ mapHas (Remove c n).Nodes k = true) := by
  rw [Remove_of_registered c n hreg]
  refine ⟨⟨mapHas_erase_self _ _, ?_⟩, ?_, ?_, Finset.sort_sorted_lt _, ?_⟩
  · intro id hid
    exact Finmap.lookup_erase_ne hid
  · intro i h0 hi
    show Finmap.lookup _ (removeLoop n (replicaCount c n) c.Nodes) = none
    rw [lookup_removeLoop, if_pos (mem_virtual_of_int n _ i h0 hi)]
  · intro k hk
    show Finmap.lookup k (removeLoop n (replicaCount c n) c.Nodes) = _
    rw [lookup_removeLoop, if_neg (not_mem_virtual_of_int n _ k hk)]
  · intro k
    show k ∈ Finset.sort _ _ ↔ mapHas (removeLoop n (replicaCount c n) c.Nodes) k = true
    rw [Finset.mem_sort, Finmap.mem_keys, mapHas_iff_mem]

/-- C5 at the ring holding `node0`: after `Remove(node0)` replica 7 is gone. -/
theorem C5_remove_postcondition_witness :
    mapHas (Remove ring0 node0).Resources node0.ID = false ∧
    Finmap.lookup (hashStr (joinStr 7 node0)) (Remove ring0 node0).Nodes = none :=
  ⟨(C5_remove_postcondition ring0 node0 mapHas_ring0).1.1,
   (C5_remove_postcondition ring0 node0 mapHas_ring0).2.1 7 (by decide) (by decide)⟩

/-- C6: `Remove` of a node whose ID is not registered leaves the whole state (`Nodes`,
`Resources`, the sorted sequence) unchanged, whatever the keys of `Nodes` are. -/
theorem C6_remove_unknown_noop (c : Consistent) (n : Node)
    (hnew : mapHas c.Resources n.ID = false) :
    Remove c n = c ∧ (Remove c n).Nodes = c.Nodes ∧
    (Remove c n).Resources = c.Resources ∧ (Remove c n).ring = c.ring := by
  rw [Remove_of_unknown c n hnew]
  exact ⟨rfl, rfl, rfl, rfl⟩

/-- C8: a second `Remove` of the same node changes nothing: the state after
`Remove(n); Remove(n)` is the state after one `Remove(n)`. -/
theorem C8_remove_idempotent (c : Consistent) (n : Node) :
    Remove (Remove c n) n = Remove c n := by
  by_cases h : mapHas c.Resources n.ID = true
  · apply Remove_of_unknown
    rw [Remove_of_registered c n h]
    exact mapHas_erase_self _ _
  · have h2 : mapHas c.Resources n.ID = false := by simpa using h
    rw [Remove_of_unknown c n h2, Remove_of_unknown c n h2]

/-! ## Reachable states -/

theorem RingOk_Add (c : Consistent) (n : Node) (h : RingOk c) : RingOk (Add c n).1 := by
  by_cases hreg : mapHas c.Resources n.ID = true
  · rw [Add_of_registered c n hreg]
    exact h
  · have hnew : mapHas c.Resources n.ID = false := by simpa using hreg
    rw [Add_of_new c n hnew]
    rfl

theorem RingOk_Remove (c : Consistent) (n : Node) (h : RingOk c) : RingOk (Remove c n) := by
  by_cases hreg : mapHas c.Resources n.ID = true
  · rw [Remove_of_registered c n hreg]
    rfl
  · have hnew : mapHas c.Resources n.ID = false := by simpa using hreg
    rw [Remove_of_unknown c n hnew]
    exact h

theorem Reachable.ringOk {c : Consistent} (h : Reachable c) : RingOk c := by
  induction h with
  | init => exact (Finset.sort_empty _).symm
  | add c n _ ih => exact RingOk_Add c n ih
  | remove c n _ ih => exact RingOk_Remove c n ih

theorem RingOk.mem_ring {c : Consistent} (h : RingOk c) (k : Nat) :
    k ∈ c.ring ↔ mapHas c.Nodes k = true := by
  rw [h, Finset.mem_sort, Finmap.mem_keys, mapHas_iff_mem]

theorem RingOk.sorted_lt {c : Consistent} (h : RingOk c) : c.ring.Sorted (· < ·) := by
  rw [h]
  exact Finset.sort_sorted_lt _

theorem RingOk.sorted_le {c : Consistent} (h : RingOk c) : c.ring.Sorted (· ≤ ·) := by
  rw [h]
  exact Finset.sort_sorted _ _

/-! ## Bounds on the result of `search` -/

/-- On a non-empty ring the result of `search` is a valid index, whatever the entries are. -/
theorem search_bounds (c : Consistent) (hash : Nat) (hne : 0 < c.ring.length) :
    0 ≤ search c hash ∧ search c hash < (c.ring.length : Int) := by
  unfold search
  simp only
  split_ifs <;> omega

theorem Get_mem_ring (c : Consistent) (key : String) (hne : 0 < c.ring.length) :
    ∃ k, k ∈ c.ring ∧ Get c key = some (mapIndex c.Nodes k) := by
  obtain ⟨h0, h1⟩ := search_bounds c (hashStr key) hne
  have hi : (search c (hashStr key)).toNat < c.ring.length := by omega
  refine ⟨c.ring.getD (search c (hashStr key)).toNat 0, getD_mem hi, ?_⟩
  exact Get_of_search c key _ hi (by omega)

/-! ## Lookup by value on a ring that agrees with the mapping -/

/-- The entry at index 0 is the smallest key. -/
theorem RingOk.getD_zero {c : Consistent} (h : RingOk c) (a : Nat)
    (ha : mapHas c.Nodes a = true) (hmin : ∀ k, mapHas c.Nodes k = true → a ≤ k) :
    c.ring.getD 0 0 = a := by
  obtain ⟨i, hi, hia⟩ := exists_getD_of_mem ((h.mem_ring a).mpr ha)
  rcases Nat.eq_zero_or_pos i with h0 | hpos
  · rw [← hia, h0]
  · have hlt := sorted_getD_lt h.sorted_lt hpos hi
    have hge := hmin _ ((h.mem_ring _).mp (getD_mem (show 0 < c.ring.length by omega)))
    omega

/-- The entry at the last index is the largest key. -/
theorem RingOk.getD_last {c : Consistent} (h : RingOk c) (b : Nat)
    (hb : mapHas c.Nodes b = true) (hmax : ∀ k, mapHas c.Nodes k = true → k ≤ b) :
    0 < c.ring.length ∧ c.ring.getD (c.ring.length - 1) 0 = b := by
  obtain ⟨i, hi, hib⟩ := exists_getD_of_mem ((h.mem_ring b).mpr hb)
  refine ⟨by omega, ?_⟩
  rcases Nat.lt_or_ge i (c.ring.length - 1) with hlt | hge
  · have hl : c.ring.length - 1 < c.ring.length := by omega
    have h1 := sorted_getD_lt h.sorted_lt hlt hl
    have h2 := hmax _ ((h.mem_ring _).mp (getD_mem hl))
    omega
  · have : i = c.ring.length - 1 := by omega
    rw [← hib, this]

/-- A hash above every key is served by the entry at the last index (the largest key). -/
theorem Get_above_all (c : Consistent) (key : String) (b : Nat) (h : RingOk c)
    (hb : mapHas c.Nodes b = true) (hmax : ∀ k, mapHas c.Nodes k = true → k ≤ b)
    (hlt : b < hashStr key) :
    search c (hashStr key) = (c.ring.length : Int) - 1 ∧
    Get c key = some (mapIndex c.Nodes b) := by
  obtain ⟨hpos, hlast⟩ := h.getD_last b hb hmax
  have hs : search c (hashStr key) = (c.ring.length : Int) - 1 :=
    search_of_no_lower_bound c (hashStr key)
      (fun x hx => lt_of_le_of_lt (hmax x ((h.mem_ring x).mp hx)) hlt)
  refine ⟨hs, ?_⟩
  have hs2 : search c (hashStr key) = ((c.ring.length - 1 : Nat) : Int) := by omega
  rw [Get_of_search c key (c.ring.length - 1) (by omega) hs2, hlast]

/-- A hash whose only key at or above it is the largest key is served by the entry at
index 0 (the smallest key). -/
theorem Get_at_last (c : Consistent) (key : String) (a b : Nat) (h : RingOk c)
    (ha : mapHas c.Nodes a = true) (hmin : ∀ k, mapHas c.Nodes k = true → a ≤ k)
    (hb : mapHas c.Nodes b = true) (hge : hashStr key ≤ b)
    (hrest : ∀ k, mapHas c.Nodes k = true → k = b ∨ k < hashStr key) :
    search c (hashStr key) = 0 ∧ Get c key = some (mapIndex c.Nodes a) := by
  have hmax : ∀ k, mapHas c.Nodes k = true → k ≤ b := by
    intro k hk
    rcases hrest k hk with rfl | hlt
    · exact le_refl _
    · omega
  obtain ⟨hpos, hlast⟩ := h.getD_last b hb hmax
  have hmin2 : ∀ j, j < c.ring.length - 1 → c.ring.getD j 0 < hashStr key := by
    intro j hj
    have hl : c.ring.length - 1 < c.ring.length := by omega
    have h1 := sorted_getD_lt h.sorted_lt hj hl
    rcases hrest _ ((h.mem_ring _).mp (getD_mem (show j < c.ring.length by omega))) with he | hlt
    · omega
    · exact hlt
  have hs := search_of_lower_bound c (hashStr key) (c.ring.length - 1) h.sorted_le
    (by omega) (by rw [hlast]; exact hge) hmin2
  rw [if_pos (by omega)] at hs
  refine ⟨hs, ?_⟩
  rw [Get_of_search c key 0 hpos hs, h.getD_zero a ha hmin]

/-! ## The state after a successful `Add` -/

theorem lookup_Add (c : Consistent) (n : Node) (hnew : mapHas c.Resources n.ID = false)
    (k : Nat) :
    Finmap.lookup k (Add c n).1.Nodes
      = if k ∈ virtualHashes n (replicaCount c n) then some n else Finmap.lookup k c.Nodes := by
  rw [Add_of_new c n hnew]
  exact lookup_addLoop n _ c.Nodes k

theorem mem_Add (c : Consistent) (n : Node) (hnew : mapHas c.Resources n.ID = false)
    (k : Nat) :
    mapHas (Add c n).1.Nodes k = true ↔
      k ∈ virtualHashes n (replicaCount c n) ∨ mapHas c.Nodes k = true := by
  unfold mapHas
  rw [lookup_Add c n hnew k]
  by_cases hk : k ∈ virtualHashes n (replicaCount c n)
  · simp [hk]
  · simp [hk]

theorem Add_numReps (c : Consistent) (n : Node) : (Add c n).1.numReps = c.numReps := by
  by_cases hreg : mapHas c.Resources n.ID = true
  · rw [Add_of_registered c n hreg]
  · have hnew : mapHas c.Resources n.ID = false := by simpa using hreg
    rw [Add_of_new c n hnew]

theorem mapHas_Add_ne (c : Consistent) (n : Node) (id : Int) (hne : id ≠ n.ID) :
    mapHas (Add c n).1.Resources id = mapHas c.Resources id := by
  by_cases hreg : mapHas c.Resources n.ID = true
  · rw [Add_of_registered c n hreg]
  · have hnew : mapHas c.Resources n.ID = false := by simpa using hreg
    rw [Add_of_new c n hnew]
    unfold mapHas
    rw [show Finmap.lookup id (Finmap.insert n.ID true c.Resources) = Finmap.lookup id c.Resources
      from Finmap.lookup_insert_of_ne _ hne]

theorem replicaCount_of_unit (c : Consistent) (n : Node) (hc : c.numReps = 160)
    (hn : n.Weight = 1) : replicaCount c n = 160 := by
  unfold replicaCount
  rw [hc, hn]
  decide

/-! ## The rings of `main` with nodes 0, 1 and 3 -/

theorem ring0_numReps : ring0.numReps = 160 := Add_numReps _ _

theorem ring01_numReps : ring01.numReps = 160 :=
  (Add_numReps _ _).trans ring0_numReps

theorem mapHas_ring0_ne (id : Int) (h : id ≠ 0) : mapHas ring0.Resources id = false :=
  (mapHas_Add_ne NewConsistent node0 id h).trans (mapHas_new_ring id)

theorem mapHas_ring01_ne (id : Int) (h0 : id ≠ 0) (h1 : id ≠ 1) :
    mapHas ring01.Resources id = false :=
  (mapHas_Add_ne ring0 node1 id h1).trans (mapHas_ring0_ne id h0)

theorem reachable_ring0 : Reachable ring0 := Reachable.add _ _ Reachable.init

theorem reachable_ring01 : Reachable ring01 := Reachable.add _ _ reachable_ring0

theorem reachable_ring013 : Reachable ring013 := Reachable.add _ _ reachable_ring01

theorem lookup_ring0 (k : Nat) :
    Finmap.lookup k ring0.Nodes = if k ∈ virtualHashes node0 160 then some node0 else none := by
  have h := lookup_Add NewConsistent node0 (mapHas_new_ring _) k
  rw [replicaCount_of_unit NewConsistent node0 rfl rfl] at h
  exact h

theorem lookup_ring01 (k : Nat) :
    Finmap.lookup k ring01.Nodes
      = if k ∈ virtualHashes node1 160 then some node1 else Finmap.lookup k ring0.Nodes := by
  have h := lookup_Add ring0 node1 (mapHas_ring0_ne 1 (by decide)) k
  rw [replicaCount_of_unit ring0 node1 ring0_numReps rfl] at h
  exact h

theorem lookup_ring013 (k : Nat) :
    Finmap.lookup k ring013.Nodes
      = if k ∈ virtualHashes node3 160 then some node3 else Finmap.lookup k ring01.Nodes := by
  have h := lookup_Add ring01 node3 (mapHas_ring01_ne 3 (by decide) (by decide)) k
  rw [replicaCount_of_unit ring01 node3 ring01_numReps rfl] at h
  exact h

theorem mem_ring01 (k : Nat) :
    mapHas ring01.Nodes k = true ↔
      k ∈ virtualHashes node1 160 ∨ k ∈ virtualHashes node0 160 := by
  unfold mapHas
  rw [lookup_ring01, lookup_ring0]
  by_cases h1 : k ∈ virtualHashes node1 160 <;> by_cases h0 : k ∈ virtualHashes node0 160 <;>
    simp [h1, h0]

theorem mem_ring013 (k : Nat) :
    mapHas ring013.Nodes k = true ↔
      k ∈ virtualHashes node3 160 ∨ mapHas ring01.Nodes k = true := by
  unfold mapHas
  rw [lookup_ring013]
  by_cases h3 : k ∈ virtualHashes node3 160 <;> simp [h3]

set_option maxRecDepth 100000 in
/-- Every virtual hash of `node0` lies between 2993553 and 4013104659. -/
theorem hashes_node0 : ∀ k ∈ virtualHashes node0 160, 2993553 < k ∧ k ≤ 4013104659 := by
  decide

set_option maxRecDepth 100000 in
/-- Every virtual hash of `node1` lies between 2993553 and 4013104659, the latter excluded. -/
theorem hashes_node1 : ∀ k ∈ virtualHashes node1 160, 2993553 ≤ k ∧ k < 4013104659 := by
  decide

set_option maxRecDepth 100000 in
/-- The virtual hashes of `node3`: all above 2993553, and all below the hash of `key237`
except 4292052826. -/
theorem hashes_node3 :
    ∀ k ∈ virtualHashes node3 160, 2993553 < k ∧ (k = 4292052826 ∨ k < 4281186512) := by
  decide

theorem mem_virtualHashes (node : Node) (i : Nat) (hi : i < 160) :
    virtualHash node i ∈ virtualHashes node 160 :=
  List.mem_map.mpr ⟨i, List.mem_range.mpr hi, rfl⟩

theorem max_mem_node0 : 4013104659 ∈ virtualHashes node0 160 := by
  have h : virtualHash node0 148 = 4013104659 := by
    set_option maxRecDepth 100000 in decide
  rw [← h]
  exact mem_virtualHashes node0 148 (by decide)

theorem min_mem_node1 : 2993553 ∈ virtualHashes node1 160 := by
  have h : virtualHash node1 108 = 2993553 := by
    set_option maxRecDepth 100000 in decide
  rw [← h]
  exact mem_virtualHashes node1 108 (by decide)

theorem max_mem_node3 : 4292052826 ∈ virtualHashes node3 160 := by
  have h : virtualHash node3 155 = 4292052826 := by
    set_option maxRecDepth 100000 in decide
  rw [← h]
  exact mem_virtualHashes node3 155 (by decide)

theorem ring01_bounds (k : Nat) (hk : mapHas ring01.Nodes k = true) : 2993553 ≤ k ∧ k ≤ 4013104659 := by
  refine ((mem_ring01 k).mp hk).elim (fun h => ?_) (fun h => ?_)
  · have := hashes_node1 k h
    omega
  · have := hashes_node0 k h
    omega

theorem mapIndex_ring01_max : mapIndex ring01.Nodes 4013104659 = node0 := by
  unfold mapIndex
  rw [lookup_ring01, if_neg (fun h => by have := hashes_node1 _ h; omega), lookup_ring0,
    if_pos max_mem_node0]
  rfl

theorem mapIndex_ring01_min : mapIndex ring01.Nodes 2993553 = node1 := by
  unfold mapIndex
  rw [lookup_ring01, if_pos min_mem_node1]
  rfl

theorem mapIndex_ring013_min : mapIndex ring013.Nodes 2993553 = node1 := by
  unfold mapIndex
  rw [lookup_ring013, if_neg (fun h => by have := hashes_node3 _ h; omega)]
  exact mapIndex_ring01_min

theorem mapHas_ring01_max : mapHas ring01.Nodes 4013104659 = true :=
  (mem_ring01 _).mpr (Or.inr max_mem_node0)

theorem mapHas_ring01_min : mapHas ring01.Nodes 2993553 = true :=
  (mem_ring01 _).mpr (Or.inl min_mem_node1)

set_option maxRecDepth 100000 in
theorem hash_key15 : hashStr "key15" = 4025886270 := by decide

set_option maxRecDepth 100000 in
theorem hash_key237 : hashStr "key237" = 4281186512 := by decide

/-! ## Claims on the wrap-around and on remapping -/

/-- C2 (the code at a failing input): in the ring of `main` after `Add(node0); Add(node1)`
the hash of `key15` is above every entry of the sorted sequence, yet `search` returns the
last index, not 0, and `Get` returns `node0`, the node bound to the last entry, while the
entry at index 0 is bound to `node1`. -/
theorem C2_search_above_all_entries :
    Reachable ring01 ∧
    (∀ x, x ∈ ring01.ring → x < hashStr "key15") ∧
    1 < ring01.ring.length ∧
    search ring01 (hashStr "key15") = (ring01.ring.length : Int) - 1 ∧
    search ring01 (hashStr "key15") ≠ 0 ∧
    Get ring01 "key15" = some node0 ∧
    mapIndex ring01.Nodes (ring01.ring.getD 0 0) = node1 ∧
    node0 ≠ node1 := by
  have hok : RingOk ring01 := reachable_ring01.ringOk
  have hmax : ∀ k, mapHas ring01.Nodes k = true → k ≤ 4013104659 :=
    fun k hk => (ring01_bounds k hk).2
  have hmin : ∀ k, mapHas ring01.Nodes k = true → 2993553 ≤ k :=
    fun k hk => (ring01_bounds k hk).1
  have hlt : 4013104659 < hashStr "key15" := by
    rw [hash_key15]
    decide
  obtain ⟨hs, hg⟩ := Get_above_all ring01 "key15" 4013104659 hok mapHas_ring01_max hmax hlt
  obtain ⟨hpos, hlast⟩ := hok.getD_last 4013104659 mapHas_ring01_max hmax
  have hfirst := hok.getD_zero 2993553 mapHas_ring01_min hmin
  have hlen : 1 < ring01.ring.length := by
    by_contra hc
    have h1 : ring01.ring.length - 1 = 0 := by omega
    rw [h1, hfirst] at hlast
    exact absurd hlast (by decide)
  refine ⟨reachable_ring01, ?_, hlen, hs, ?_, ?_, ?_, by decide⟩
  · intro x hx
    exact lt_of_le_of_lt (hmax x ((hok.mem_ring x).mp hx)) hlt
  · rw [hs]
    omega
  · rw [hg, mapIndex_ring01_max]
  · rw [hfirst, mapIndex_ring01_min]

/-- C10 (the code at a failing input): in the ring of `main` after `Add(node0); Add(node1)`,
`Get("key237")` returns `node0`; after `Add(node3)`, a node of weight 1 with an unregistered
ID, it returns `node1`: the key moved between two nodes registered before. -/
theorem C10_add_moves_key_between_old_nodes :
    Reachable ring01 ∧ 0 < ring01.ring.length ∧
    mapHas ring01.Resources node3.ID = false ∧ 1 ≤ node3.Weight ∧
    Get ring01 "key237" = some node0 ∧
    Get (Add ring01 node3).1 "key237" = some node1 ∧
    node1 ≠ node0 ∧ node1 ≠ node3 := by
  have hok : RingOk ring01 := reachable_ring01.ringOk
  have hok3 : RingOk ring013 := reachable_ring013.ringOk
  have hmax : ∀ k, mapHas ring01.Nodes k = true → k ≤ 4013104659 :=
    fun k hk => (ring01_bounds k hk).2
  have hlt : 4013104659 < hashStr "key237" := by
    rw [hash_key237]
    decide
  obtain ⟨_, hg⟩ := Get_above_all ring01 "key237" 4013104659 hok mapHas_ring01_max hmax hlt
  obtain ⟨hpos, _⟩ := hok.getD_last 4013104659 mapHas_ring01_max hmax
  have ha : mapHas ring013.Nodes 2993553 = true :=
    (mem_ring013 _).mpr (Or.inr mapHas_ring01_min)
  have hb : mapHas ring013.Nodes 4292052826 = true :=
    (mem_ring013 _).mpr (Or.inl max_mem_node3)
  have hmin3 : ∀ k, mapHas ring013.Nodes k = true → 2993553 ≤ k := by
    intro k hk
    refine ((mem_ring013 k).mp hk).elim (fun h => ?_) (fun h => ?_)
    · have := hashes_node3 k h
      omega
    · exact (ring01_bounds k h).1
  have hrest : ∀ k, mapHas ring013.Nodes k = true →
      k = 4292052826 ∨ k < hashStr "key237" := by
    intro k hk
    rw [hash_key237]
    refine ((mem_ring013 k).mp hk).elim (fun h => ?_) (fun h => ?_)
    · exact (hashes_node3 k h).2
    · have := (ring01_bounds k h).2
      right
      omega
  have hge : hashStr "key237" ≤ 4292052826 := by
    rw [hash_key237]
    decide
  obtain ⟨_, hg3⟩ := Get_at_last ring013 "key237" 2993553 4292052826 hok3 ha hmin3 hb hge hrest
  refine ⟨reachable_ring01, hpos, mapHas_ring01_ne 3 (by decide) (by decide), by decide,
    ?_, ?_, by decide, by decide⟩
  · rw [hg, mapIndex_ring01_max]
  · show Get ring013 "key237" = some node1
    rw [hg3, mapIndex_ring013_min]

/-! ## `Add` followed by `Remove` -/

theorem lookup_Remove (c : Consistent) (n : Node) (hreg : mapHas c.Resources n.ID = true)
    (k : Nat) :
    Finmap.lookup k (Remove c n).Nodes
      = if k ∈ virtualHashes n (replicaCount c n) then none else Finmap.lookup k c.Nodes := by
  rw [Remove_of_registered c n hreg]
  exact lookup_removeLoop n _ c.Nodes k

theorem lookup_eq_none_of_mapHas {K : Type} {V : Type} [DecidableEq K]
    (m : Finmap (fun _ : K => V)) (k : K) (h : mapHas m k = false) :
    Finmap.lookup k m = none := by
  unfold mapHas at h
  cases hl : Finmap.lookup k m with
  | none => rfl
  | some v =>
    rw [hl] at h
    exact Bool.noConfusion h

theorem removeLoop_addLoop (n : Node) (count : Int) (m : Finmap (fun _ : Nat => Node))
    (hfresh : ∀ k, k ∈ virtualHashes n count → Finmap.lookup k m = none) :
    removeLoop n count (addLoop n count m) = m := by
  apply Finmap.ext_lookup
  intro k
  rw [lookup_removeLoop, lookup_addLoop]
  by_cases hk : k ∈ (List.range count.toNat).map (virtualHash n)
  · rw [if_pos hk]
    exact (hfresh k hk).symm
  · rw [if_neg hk, if_neg hk]

theorem erase_insert_of_absent (m : Finmap (fun _ : Int => Bool)) (k : Int) (b : Bool)
    (h : mapHas m k = false) : Finmap.erase k (Finmap.insert k b m) = m := by
  apply Finmap.ext_lookup
  intro x
  by_cases hx : x = k
  · subst hx
    rw [Finmap.lookup_erase, lookup_eq_none_of_mapHas m x h]
  · rw [Finmap.lookup_erase_ne hx, Finmap.lookup_insert_of_ne m hx]

theorem mapHas_Add_self (c : Consistent) (n : Node) :
    mapHas (Add c n).1.Resources n.ID = true := by
  by_cases hreg : mapHas c.Resources n.ID = true
  · rw [Add_of_registered c n hreg]
    exact hreg
  · have hnew : mapHas c.Resources n.ID = false := by simpa using hreg
    rw [Add_of_new c n hnew]
    exact mapHas_insert_self _ _ _

/-- C7 (amended): in a state reachable from `NewConsistent`, for a node `n` whose ID is not
registered and none of whose virtual hashes `hashStr(joinStr(i, n))`, `0 <= i < count`, is
a key of `Nodes`, `Add(n)` followed by `Remove(n)` restores the state: the same `Nodes`
(keys and bindings), the same `Resources` and the same sorted sequence. -/
theorem C7_add_remove_inverse (c : Consistent) (n : Node) (hreach : Reachable c)
    (hnew : mapHas c.Resources n.ID = false)
    (hfresh : ∀ i : Int, 0 ≤ i → i < replicaCount c n →
      mapHas c.Nodes (hashStr (joinStr i n)) = false) :
    Remove (Add c n).1 n = c ∧
    (Remove (Add c n).1 n).Nodes = c.Nodes ∧
    (Remove (Add c n).1 n).Resources = c.Resources ∧
    (Remove (Add c n).1 n).ring = c.ring := by
  have hN : removeLoop n (replicaCount c n) (addLoop n (replicaCount c n) c.Nodes) = c.Nodes := by
    apply removeLoop_addLoop
    intro k hk
    obtain ⟨i, hi, rfl⟩ := (mem_virtual_iff n _ k).mp hk
    exact lookup_eq_none_of_mapHas _ _ (hfresh (i : Int) (by omega) hi)
  have hR := erase_insert_of_absent c.Resources n.ID true hnew
  have hring : c.ring = c.Nodes.keys.sort (· ≤ ·) := hreach.ringOk
  have key : Remove (Add c n).1 n = c := by
    rw [Remove_of_registered _ n (mapHas_Add_self c n), Add_of_new c n hnew]
    show ({ Nodes := removeLoop n (replicaCount c n) (addLoop n (replicaCount c n) c.Nodes),
            numReps := c.numReps,
            Resources := Finmap.erase n.ID (Finmap.insert n.ID true c.Resources),
            ring := (removeLoop n (replicaCount c n)
              (addLoop n (replicaCount c n) c.Nodes)).keys.sort (· ≤ ·) } : Consistent) = c
    rw [hN, hR, ← hring]
  rw [key]
  exact ⟨rfl, rfl, rfl, rfl⟩

/-- C7 at a new ring and `node0`. -/
theorem C7_add_remove_inverse_witness :
    Remove (Add NewConsistent node0).1 node0 = NewConsistent :=
  (C7_add_remove_inverse NewConsistent node0 Reachable.init (mapHas_new_ring _)
    (fun _ _ _ => by
      unfold mapHas NewConsistent
      rw [Finmap.lookup_empty]
      rfl)).1

set_option maxRecDepth 100000 in
theorem collision_nodeX : virtualHash nodeX 5 = virtualHash node0 7 := by decide

set_option maxRecDepth 100000 in
theorem virtualKey_node0_7 : hashStr "172.18.1.0*1-7-0" = virtualHash node0 7 := by decide

/-- C7 (counterexample): `ring0` holds `node0`; `nodeX` has an unregistered ID and its
virtual key of replica 5 has the hash of the virtual key `172.18.1.0*1-7-0` of `node0`.
`Add(nodeX)` overwrites that entry and `Remove(nodeX)` deletes it: the hash was bound to
`node0` before and is absent afterwards. -/
theorem C7_counterexample :
    Reachable ring0 ∧ mapHas ring0.Resources nodeX.ID = false ∧
    Finmap.lookup (hashStr "172.18.1.0*1-7-0") ring0.Nodes = some node0 ∧
    Finmap.lookup (hashStr "172.18.1.0*1-7-0") (Remove (Add ring0 nodeX).1 nodeX).Nodes = none ∧
    (Remove (Add ring0 nodeX).1 nodeX).Nodes ≠ ring0.Nodes ∧
    Remove (Add ring0 nodeX).1 nodeX ≠ ring0 := by
  have hbefore : Finmap.lookup (hashStr "172.18.1.0*1-7-0") ring0.Nodes = some node0 := by
    rw [virtualKey_node0_7, lookup_ring0, if_pos (mem_virtualHashes node0 7 (by decide))]
  have hcount : replicaCount (Add ring0 nodeX).1 nodeX = 160 :=
    replicaCount_of_unit _ _ ((Add_numReps _ _).trans ring0_numReps) rfl
  have hafter : Finmap.lookup (hashStr "172.18.1.0*1-7-0")
      (Remove (Add ring0 nodeX).1 nodeX).Nodes = none := by
    rw [lookup_Remove _ _ (mapHas_Add_self ring0 nodeX), hcount, virtualKey_node0_7,
      ← collision_nodeX, if_pos (mem_virtualHashes nodeX 5 (by decide))]
  refine ⟨reachable_ring0, mapHas_ring0_ne 2 (by decide), hbefore, hafter, ?_, ?_⟩
  · intro h
    rw [h, hbefore] at hafter
    exact Option.noConfusion hafter
  · intro h
    rw [h, hbefore] at hafter
    exact Option.noConfusion hafter

/-- C6 at `ring0` and `nodeX`: the ID of `nodeX` is not registered, the hash of its
replica 5 is a key of `Nodes`, and `Remove(nodeX)` changes nothing. -/
theorem C6_remove_unknown_noop_witness :
    mapHas ring0.Resources nodeX.ID = false ∧
    mapHas ring0.Nodes (virtualHash nodeX 5) = true ∧
    Remove ring0 nodeX = ring0 :=
  ⟨mapHas_ring0_ne 2 (by decide),
   by
    unfold mapHas
    rw [collision_nodeX, lookup_ring0, if_pos (mem_virtualHashes node0 7 (by decide))]
    rfl,
   (C6_remove_unknown_noop ring0 nodeX (mapHas_ring0_ne 2 (by decide))).1⟩

/-! ## The ring of a single node -/

theorem Get_of_empty_ring (c : Consistent) (key : String) (h : c.ring = []) :
    Get c key = none := by
  unfold Get search sliceIndex
  rw [h]
  rfl

/-- Weights from 1 to 57646075230342348 give a positive replica count on a new ring:
`160 * Weight` does not overflow. -/
theorem replicaCount_pos_of_weight (n : Node) (h1 : 1 ≤ n.Weight)
    (h2 : n.Weight ≤ 57646075230342348) : 0 < replicaCount NewConsistent n := by
  unfold replicaCount wrapInt
  have hn : NewConsistent.numReps = 160 := rfl
  rw [hn]
  have h3 : (160 * n.Weight + 2 ^ 63) % 2 ^ 64 = 160 * n.Weight + 2 ^ 63 :=
    Int.emod_eq_of_lt (by omega) (by omega)
  rw [h3]
  omega

/-- C9 (amended): for every node `n` whose replica count `160 * n.Weight`, computed in
64-bit `int` arithmetic, is at least 1 (so for every weight from 1 to 57646075230342348),
in the ring obtained from `NewConsistent` by `Add(n)` alone, `Get(key)` returns `n` for
every key. -/
theorem C9_single_node_ring (n : Node) (key : String)
    (hcount : 0 < replicaCount NewConsistent n) :
    Get (Add NewConsistent n).1 key = some n := by
  have hnew : mapHas NewConsistent.Resources n.ID = false := mapHas_new_ring _
  have hok : RingOk (Add NewConsistent n).1 := RingOk_Add _ _ Reachable.init.ringOk
  have hall : ∀ k, mapHas (Add NewConsistent n).1.Nodes k = true →
      mapIndex (Add NewConsistent n).1.Nodes k = n := by
    intro k hk
    have hmem : k ∈ virtualHashes n (replicaCount NewConsistent n) := by
      refine ((mem_Add NewConsistent n hnew k).mp hk).elim id (fun h => ?_)
      have h2 : mapHas (∅ : Finmap (fun _ : Nat => Node)) k = true := h
      unfold mapHas at h2
      rw [Finmap.lookup_empty] at h2
      exact Bool.noConfusion h2
    unfold mapIndex
    rw [lookup_Add NewConsistent n hnew k, if_pos hmem]
    rfl
  have hzero : virtualHash n 0 ∈ virtualHashes n (replicaCount NewConsistent n) :=
    List.mem_map.mpr ⟨0, List.mem_range.mpr (by omega), rfl⟩
  have hin : virtualHash n 0 ∈ (Add NewConsistent n).1.ring :=
    (hok.mem_ring _).mpr ((mem_Add NewConsistent n hnew _).mpr (Or.inl hzero))
  obtain ⟨k, hk, hg⟩ := Get_mem_ring (Add NewConsistent n).1 key (List.length_pos_of_mem hin)
  rw [hg, hall k ((hok.mem_ring k).mp hk)]

/-- C9 at `node0` (weight 1) and the key `key0`. -/
theorem C9_single_node_ring_witness : Get (Add NewConsistent node0).1 "key0" = some node0 :=
  C9_single_node_ring node0 "key0" (by decide)

/-- C9 (counterexample): `heavyNode` has weight `2 ^ 62 >= 1`; the count `160 * 2 ^ 62`
wraps to 0, `Add` stores no entry, the ring stays empty and `Get` indexes it at `-1`. -/
theorem C9_counterexample :
    1 ≤ heavyNode.Weight ∧ heavyNode.Weight < 2 ^ 63 ∧
    (Add NewConsistent heavyNode).2 = true ∧
    (Add NewConsistent heavyNode).1.ring = [] ∧
    Get (Add NewConsistent heavyNode).1 "key0" = none := by
  have hcount : replicaCount NewConsistent heavyNode = 0 := by decide
  have hring : (Add NewConsistent heavyNode).1.ring = [] := by
    rw [Add_of_new _ _ (mapHas_new_ring _), hcount]
    show Finset.sort (· ≤ ·) (Finmap.keys (∅ : Finmap (fun _ : Nat => Node))) = []
    rw [Finmap.keys_empty, Finset.sort_empty]
  refine ⟨by decide, by decide, ?_, hring, Get_of_empty_ring _ _ hring⟩
  rw [Add_of_new _ _ (mapHas_new_ring _)]

/-! ## Order of two `Add` calls -/

theorem Consistent_eq_of_fields (x y : Consistent) (h1 : x.Nodes = y.Nodes)
    (h2 : x.numReps = y.numReps) (h3 : x.Resources = y.Resources) (h4 : x.ring = y.ring) :
    x = y := by
  cases x
  cases y
  simp only at h1 h2 h3 h4
  subst h1 h2 h3 h4
  rfl

theorem Add_Resources_of_new (c : Consistent) (n : Node)
    (hnew : mapHas c.Resources n.ID = false) :
    (Add c n).1.Resources = Finmap.insert n.ID true c.Resources := by
  rw [Add_of_new c n hnew]

theorem Add_ring_of_new (c : Consistent) (n : Node) (hnew : mapHas c.Resources n.ID = false) :
    (Add c n).1.ring = (Add c n).1.Nodes.keys.sort (· ≤ ·) := by
  rw [Add_of_new c n hnew]

theorem replicaCount_Add (c : Consistent) (m n : Node) :
    replicaCount (Add c m).1 n = replicaCount c n := by
  unfold replicaCount
  rw [Add_numReps]

theorem mem_virtualHashes_iff (n : Node) (count : Int) (k : Nat) :
    k ∈ virtualHashes n count ↔
      ∃ i : Int, 0 ≤ i ∧ i < count ∧ k = hashStr (joinStr i n) := by
  constructor
  · intro hk
    obtain ⟨i, hi, rfl⟩ := (mem_virtual_iff n count k).mp hk
    exact ⟨(i : Int), by omega, hi, rfl⟩
  · rintro ⟨i, h0, hi, rfl⟩
    exact mem_virtual_of_int n count i h0 hi

theorem lookup_Add_Add (c : Consistent) (a b : Node) (hab : a.ID ≠ b.ID)
    (ha : mapHas c.Resources a.ID = false) (hb : mapHas c.Resources b.ID = false) (k : Nat) :
    Finmap.lookup k (Add (Add c a).1 b).1.Nodes
      = if k ∈ virtualHashes b (replicaCount c b) then some b
        else if k ∈ virtualHashes a (replicaCount c a) then some a
        else Finmap.lookup k c.Nodes := by
  have hb2 : mapHas (Add c a).1.Resources b.ID = false :=
    (mapHas_Add_ne c a b.ID (Ne.symm hab)).trans hb
  rw [lookup_Add _ b hb2 k, replicaCount_Add, lookup_Add c a ha k]

/-- C11 (amended): for every ring state and any two nodes `a` and `b` with distinct
unregistered IDs, no virtual hash of `a` being a virtual hash of `b`, `Add(a); Add(b)` and
`Add(b); Add(a)` yield the same state (the same `Nodes`, `Resources` and sorted sequence),
hence the same `Get(key)` for every key. -/
theorem C11_add_order_independent (c : Consistent) (a b : Node) (hab : a.ID ≠ b.ID)
    (ha : mapHas c.Resources a.ID = false) (hb : mapHas c.Resources b.ID = false)
    (hdisj : ∀ i j : Int, 0 ≤ i → i < replicaCount c a → 0 ≤ j → j < replicaCount c b →
      hashStr (joinStr i a) ≠ hashStr (joinStr j b)) :
    (Add (Add c a).1 b).1 = (Add (Add c b).1 a).1 ∧
    (Add (Add c a).1 b).1.Nodes = (Add (Add c b).1 a).1.Nodes ∧
    (Add (Add c a).1 b).1.Resources = (Add (Add c b).1 a).1.Resources ∧
    (Add (Add c a).1 b).1.ring = (Add (Add c b).1 a).1.ring ∧
    ∀ key : String, Get (Add (Add c a).1 b).1 key = Get (Add (Add c b).1 a).1 key := by
  have hb2 : mapHas (Add c a).1.Resources b.ID = false :=
    (mapHas_Add_ne c a b.ID (Ne.symm hab)).trans hb
  have ha2 : mapHas (Add c b).1.Resources a.ID = false :=
    (mapHas_Add_ne c b a.ID hab).trans ha
  have hN : (Add (Add c a).1 b).1.Nodes = (Add (Add c b).1 a).1.Nodes := by
    apply Finmap.ext_lookup
    intro k
    rw [lookup_Add_Add c a b hab ha hb k, lookup_Add_Add c b a (Ne.symm hab) hb ha k]
    by_cases hka : k ∈ virtualHashes a (replicaCount c a)
    · by_cases hkb : k ∈ virtualHashes b (replicaCount c b)
      · obtain ⟨i, hi0, hi, hki⟩ := (mem_virtualHashes_iff a _ k).mp hka
        obtain ⟨j, hj0, hj, hkj⟩ := (mem_virtualHashes_iff b _ k).mp hkb
        exact absurd (hki.symm.trans hkj) (hdisj i j hi0 hi hj0 hj)
      · rw [if_neg hkb, if_pos hka, if_pos hka]
    · rw [if_neg hka, if_neg hka]
  have hR : (Add (Add c a).1 b).1.Resources = (Add (Add c b).1 a).1.Resources := by
    rw [Add_Resources_of_new _ b hb2, Add_Resources_of_new c a ha,
      Add_Resources_of_new _ a ha2, Add_Resources_of_new c b hb]
    exact Finmap.insert_insert_of_ne _ hab
  have hr : (Add (Add c a).1 b).1.ring = (Add (Add c b).1 a).1.ring := by
    rw [Add_ring_of_new _ b hb2, Add_ring_of_new _ a ha2, hN]
  have hn : (Add (Add c a).1 b).1.numReps = (Add (Add c b).1 a).1.numReps := by
    rw [Add_numReps, Add_numReps, Add_numReps, Add_numReps]
  have heq := Consistent_eq_of_fields _ _ hN hn hR hr
  refine ⟨heq, hN, hR, hr, ?_⟩
  intro key
  rw [heq]

set_option maxRecDepth 1000000 in
/-- No virtual hash of `node0` is a virtual hash of `node1`. -/
theorem disjoint_node0_node1 : ∀ k ∈ virtualHashes node0 160, k ∉ virtualHashes node1 160 := by
  decide

theorem replicaCount_new_unit (n : Node) (hn : n.Weight = 1) :
    replicaCount NewConsistent n = 160 :=
  replicaCount_of_unit NewConsistent n rfl hn

/-- C11 at a new ring with `node0` and `node1`, whose 320 virtual hashes are distinct. -/
theorem C11_add_order_independent_witness :
    (Add (Add NewConsistent node0).1 node1).1 = (Add (Add NewConsistent node1).1 node0).1 :=
  (C11_add_order_independent NewConsistent node0 node1 (by decide) (mapHas_new_ring _)
    (mapHas_new_ring _)
    (fun i j hi0 hi hj0 hj h => by
      rw [replicaCount_new_unit node0 rfl] at hi
      rw [replicaCount_new_unit node1 rfl] at hj
      have h1 := mem_virtual_of_int node1 160 j hj0 hj
      rw [← h] at h1
      exact disjoint_node0_node1 _ (mem_virtual_of_int node0 160 i hi0 hi) h1)).1

/-- C11 (counterexample): `node0` and `nodeX` have distinct unregistered IDs on a new ring and
share the virtual hash of `172.18.1.0*1-7-0`; after `Add(node0); Add(nodeX)` it is bound to
`nodeX`, after `Add(nodeX); Add(node0)` it is bound to `node0`. -/
theorem C11_counterexample :
    node0.ID ≠ nodeX.ID ∧
    mapHas NewConsistent.Resources node0.ID = false ∧
    mapHas NewConsistent.Resources nodeX.ID = false ∧
    Finmap.lookup (hashStr "172.18.1.0*1-7-0") (Add (Add NewConsistent node0).1 nodeX).1.Nodes
      = some nodeX ∧
    Finmap.lookup (hashStr "172.18.1.0*1-7-0") (Add (Add NewConsistent nodeX).1 node0).1.Nodes
      = some node0 ∧
    (Add (Add NewConsistent node0).1 nodeX).1.Nodes
      ≠ (Add (Add NewConsistent nodeX).1 node0).1.Nodes := by
  have hne : node0.ID ≠ nodeX.ID := by decide
  have h1 : Finmap.lookup (hashStr "172.18.1.0*1-7-0")
      (Add (Add NewConsistent node0).1 nodeX).1.Nodes = some nodeX := by
    rw [lookup_Add_Add NewConsistent node0 nodeX hne (mapHas_new_ring _) (mapHas_new_ring _),
      replicaCount_new_unit nodeX rfl, virtualKey_node0_7, ← collision_nodeX,
      if_pos (mem_virtualHashes nodeX 5 (by decide))]
  have h2 : Finmap.lookup (hashStr "172.18.1.0*1-7-0")
      (Add (Add NewConsistent nodeX).1 node0).1.Nodes = some node0 := by
    rw [lookup_Add_Add NewConsistent nodeX node0 (Ne.symm hne) (mapHas_new_ring _)
      (mapHas_new_ring _), replicaCount_new_unit node0 rfl, virtualKey_node0_7,
      if_pos (mem_virtualHashes node0 7 (by decide))]
  refine ⟨hne, mapHas_new_ring _, mapHas_new_ring _, h1, h2, ?_⟩
  intro h
  rw [h, h2] at h1
  exact absurd h1 (by decide)

/-! ## Lookup on an empty ring -/

/-- C12 (the code on the failing input): on the ring returned by `NewConsistent` the sorted
sequence is empty, `search` returns `-1` for the hash of every key, and `Get` indexes the
sequence out of range (the run-time panic, `none`). -/
theorem C12_get_on_empty_ring (key : String) :
    NewConsistent.ring = [] ∧
    search NewConsistent (hashStr key) = -1 ∧
    sliceIndex NewConsistent.ring (search NewConsistent (hashStr key)) = none ∧
    Get NewConsistent key = none := by
  have hs : search NewConsistent (hashStr key) = -1 := rfl
  refine ⟨rfl, hs, ?_, Get_of_empty_ring _ _ rfl⟩
  rw [hs]
  rfl

/-! ## Invariant of the sorted sequence -/

/-- C14: in every state reachable from `NewConsistent` by `Add` and `Remove` calls with
arbitrary nodes, the sorted sequence is strictly ascending, has no duplicates, and its
elements are exactly the keys of `Nodes`. -/
theorem C14_sorted_sequence_invariant (c : Consistent) (h : Reachable c) :
    c.ring.Sorted (· < ·) ∧ c.ring.Nodup ∧
    ∀ k : Nat, k ∈ c.ring ↔ mapHas c.Nodes k = true := by
  have hok := h.ringOk
  refine ⟨hok.sorted_lt, ?_, hok.mem_ring⟩
  rw [hok]
  exact Finset.sort_nodup _ _

/-- C14 at the ring of `main` with nodes 0 and 1. -/
theorem C14_sorted_sequence_invariant_witness :
    ring01.ring.Sorted (· < ·) ∧ ring01.ring.Nodup ∧
    ∀ k : Nat, k ∈ ring01.ring ↔ mapHas ring01.Nodes k = true :=
  C14_sorted_sequence_invariant ring01 reachable_ring01

/-! ## `Remove` with another weight -/

theorem Get_congr (c d : Consistent) (key : String) (hN : d.Nodes = c.Nodes)
    (hr : d.ring = c.ring) : Get d key = Get c key := by
  unfold Get search
  rw [hN, hr]

theorem removeLoop_of_absent (n : Node) (count : Int) (m : Finmap (fun _ : Nat => Node))
    (habs : ∀ k, k ∈ virtualHashes n count → Finmap.lookup k m = none) :
    removeLoop n count m = m := by
  apply Finmap.ext_lookup
  intro k
  rw [lookup_removeLoop]
  by_cases hk : k ∈ (List.range count.toNat).map (virtualHash n)
  · rw [if_pos hk]
    exact (habs k hk).symm
  · rw [if_neg hk]

/-- C17: in a state reachable from `NewConsistent` where the ID of `n` is registered, let `m`
be `n` with another weight `w`. If no virtual key of `m` hashes to a key of `Nodes`, then
`Remove(m)` unregisters the ID and leaves `Nodes` and the sorted sequence unchanged: every
entry of `n` keeps its binding and `Get` returns what it returned before, the unregistered
node included. -/
theorem C17_weight_mismatch_remove (c : Consistent) (n : Node) (w : Int)
    (hreach : Reachable c) (hreg : mapHas c.Resources n.ID = true)
    (hmiss : ∀ i : Int, 0 ≤ i → i < replicaCount c { n with Weight := w } →
      mapHas c.Nodes (hashStr (joinStr i { n with Weight := w })) = false) :
    mapHas (Remove c { n with Weight := w }).Resources n.ID = false ∧
    (Remove c { n with Weight := w }).Nodes = c.Nodes ∧
    (Remove c { n with Weight := w }).ring = c.ring ∧
    (∀ i : Int, Finmap.lookup (hashStr (joinStr i n)) (Remove c { n with Weight := w }).Nodes
      = Finmap.lookup (hashStr (joinStr i n)) c.Nodes) ∧
    (∀ key : String, Get (Remove c { n with Weight := w }) key = Get c key) := by
  have hreg2 : mapHas c.Resources ({ n with Weight := w } : Node).ID = true := hreg
  have hN : (Remove c { n with Weight := w }).Nodes = c.Nodes := by
    rw [Remove_of_registered c _ hreg2]
    apply removeLoop_of_absent
    intro k hk
    obtain ⟨i, hi, rfl⟩ := (mem_virtual_iff _ _ k).mp hk
    exact lookup_eq_none_of_mapHas _ _ (hmiss (i : Int) (by omega) hi)
  have hr : (Remove c { n with Weight := w }).ring = c.ring := by
    have h1 : RingOk (Remove c { n with Weight := w }) := RingOk_Remove _ _ hreach.ringOk
    have h2 : RingOk c := hreach.ringOk
    unfold RingOk at h1 h2
    rw [h1, h2, hN]
  refine ⟨?_, hN, hr, ?_, ?_⟩
  · rw [Remove_of_registered c _ hreg2]
    exact mapHas_erase_self _ _
  · intro i
    rw [hN]
  · intro key
    exact Get_congr _ _ key hN hr

set_option maxRecDepth 1000000 in
/-- No virtual hash of `node0` with weight 2 is a virtual hash of `node0`. -/
theorem disjoint_node0w2_node0 :
    ∀ k ∈ virtualHashes node0w2 320, k ∉ virtualHashes node0 160 := by
  decide

/-- C17 at `ring0`: `node0` was added with weight 1 and is removed with weight 2. -/
theorem C17_weight_mismatch_remove_witness :
    mapHas (Remove ring0 node0w2).Resources node0.ID = false ∧
    (Remove ring0 node0w2).Nodes = ring0.Nodes ∧
    (Remove ring0 node0w2).ring = ring0.ring :=
  have h := C17_weight_mismatch_remove ring0 node0 2 reachable_ring0 mapHas_ring0
    (fun i hi0 hi => by
      have hc : replicaCount ring0 node0w2 = 320 := by
        unfold replicaCount
        rw [ring0_numReps]
        decide
      have hi2 : i < replicaCount ring0 node0w2 := hi
      rw [hc] at hi2
      have hmem := mem_virtual_of_int node0w2 320 i hi0 hi2
      show mapHas ring0.Nodes (hashStr (joinStr i node0w2)) = false
      unfold mapHas
      rw [lookup_ring0, if_neg (disjoint_node0w2_node0 _ hmem)]
      rfl)
  ⟨h.1, h.2.1, h.2.2.1⟩

/-! ## Nodes stored in the mapping -/

theorem Remove_numReps (c : Consistent) (n : Node) : (Remove c n).numReps = c.numReps := by
  by_cases hreg : mapHas c.Resources n.ID = true
  · rw [Remove_of_registered c n hreg]
  · have hnew : mapHas c.Resources n.ID = false := by simpa using hreg
    rw [Remove_of_unknown c n hnew]

theorem replicaCount_Remove (c : Consistent) (m n : Node) :
    replicaCount (Remove c m) n = replicaCount c n := by
  unfold replicaCount
  rw [Remove_numReps]

theorem Reachable.numReps {c : Consistent} (h : Reachable c) : c.numReps = 160 := by
  induction h with
  | init => rfl
  | add c n _ ih => rw [Add_numReps, ih]
  | remove c n _ ih => rw [Remove_numReps, ih]

theorem count_pos_of_mem {n : Node} {count : Int} {k : Nat}
    (hk : k ∈ virtualHashes n count) : 0 < count := by
  obtain ⟨i, hi, _⟩ := (mem_virtual_iff n count k).mp hk
  omega

/-- Every node stored in the mapping of a reachable state entered it through an `Add` whose
loop ran at least once, under one of its own virtual hashes. -/
theorem Reachable.stored {c : Consistent} (h : Reachable c) (k : Nat) (n : Node)
    (hk : Finmap.lookup k c.Nodes = some n) :
    k ∈ virtualHashes n (replicaCount c n) := by
  induction h generalizing k n with
  | init =>
    have h0 : Finmap.lookup k NewConsistent.Nodes = none := Finmap.lookup_empty k
    rw [h0] at hk
    exact Option.noConfusion hk
  | add c m _ ih =>
    rw [replicaCount_Add]
    by_cases hreg : mapHas c.Resources m.ID = true
    · rw [Add_of_registered c m hreg] at hk
      exact ih k n hk
    · have hnew : mapHas c.Resources m.ID = false := by simpa using hreg
      rw [lookup_Add c m hnew k] at hk
      by_cases hm : k ∈ virtualHashes m (replicaCount c m)
      · rw [if_pos hm] at hk
        have hmn : m = n := Option.some.inj hk
        rw [← hmn]
        exact hm
      · rw [if_neg hm] at hk
        exact ih k n hk
  | remove c m _ ih =>
    rw [replicaCount_Remove]
    by_cases hreg : mapHas c.Resources m.ID = true
    · rw [lookup_Remove c m hreg k] at hk
      by_cases hm : k ∈ virtualHashes m (replicaCount c m)
      · rw [if_pos hm] at hk
        exact Option.noConfusion hk
      · rw [if_neg hm] at hk
        exact ih k n hk
    · have hnew : mapHas c.Resources m.ID = false := by simpa using hreg
      rw [Remove_of_unknown c m hnew] at hk
      exact ih k n hk

theorem replicaCount_default (c : Consistent) : replicaCount c default = 0 := by
  unfold replicaCount
  have h : (default : Node).Weight = 0 := rfl
  rw [h, mul_zero]
  decide

/-- C19: in every state reachable from `NewConsistent` whose sorted sequence is non-empty,
for every key the index returned by `search` lies in `[0, len(ring))`, the entry at that
index is a key of `Nodes`, and `Get` returns the node bound to it, which is not the
zero-value `Node`. -/
theorem C19_lookup_safety (c : Consistent) (key : String) (h : Reachable c)
    (hne : c.ring ≠ []) :
    0 ≤ search c (hashStr key) ∧ search c (hashStr key) < (c.ring.length : Int) ∧
    ∃ (k : Nat) (n : Node),
      sliceIndex c.ring (search c (hashStr key)) = some k ∧
      Finmap.lookup k c.Nodes = some n ∧ Get c key = some n ∧ n ≠ default := by
  have hpos : 0 < c.ring.length := List.length_pos.mpr hne
  obtain ⟨h0, h1⟩ := search_bounds c (hashStr key) hpos
  have hi : (search c (hashStr key)).toNat < c.ring.length := by omega
  have hidx : search c (hashStr key) = ((search c (hashStr key)).toNat : Int) := by omega
  have hkey := (h.ringOk.mem_ring _).mp (getD_mem hi)
  unfold mapHas at hkey
  obtain ⟨n, hn⟩ := Option.isSome_iff_exists.mp hkey
  refine ⟨h0, h1, c.ring.getD (search c (hashStr key)).toNat 0, n, ?_, hn, ?_, ?_⟩
  · rw [hidx]
    exact sliceIndex_nat c.ring _ hi
  · rw [Get_of_search c key _ hi hidx]
    unfold mapIndex
    rw [hn]
    rfl
  · intro hd
    have hc := count_pos_of_mem (h.stored _ n hn)
    rw [hd, replicaCount_default] at hc
    exact absurd hc (by decide)

theorem ring0_nonempty : ring0.ring ≠ [] := by
  have hmem : virtualHash node0 0 ∈ ring0.ring := by
    rw [reachable_ring0.ringOk.mem_ring]
    unfold mapHas
    rw [lookup_ring0, if_pos (mem_virtualHashes node0 0 (by decide))]
    rfl
  exact List.ne_nil_of_mem hmem

/-- C19 at `ring0` and the key `key0`. -/
theorem C19_lookup_safety_witness :
    0 ≤ search ring0 (hashStr "key0") ∧
    search ring0 (hashStr "key0") < (ring0.ring.length : Int) ∧
    ∃ (k : Nat) (n : Node),
      sliceIndex ring0.ring (search ring0 (hashStr "key0")) = some k ∧
      Finmap.lookup k ring0.Nodes = some n ∧ Get ring0 "key0" = some n ∧ n ≠ default :=
  C19_lookup_safety ring0 "key0" reachable_ring0 ring0_nonempty

/-! ## `Add` of a node whose loop does not run -/

theorem addLoop_of_nonpos (n : Node) (count : Int) (m : Finmap (fun _ : Nat => Node))
    (h : count ≤ 0) : addLoop n count m = m := by
  unfold addLoop
  have h0 : count.toNat = 0 := by omega
  rw [h0]
  rfl

/-- Weights from -57646075230342348 to 0 give a count `160 * Weight <= 0` without
overflow. -/
theorem replicaCount_nonpos_of_weight (c : Consistent) (n : Node) (hc : c.numReps = 160)
    (h1 : -57646075230342348 ≤ n.Weight) (h2 : n.Weight ≤ 0) : replicaCount c n ≤ 0 := by
  unfold replicaCount wrapInt
  rw [hc]
  have h3 : (160 * n.Weight + 2 ^ 63) % 2 ^ 64 = 160 * n.Weight + 2 ^ 63 :=
    Int.emod_eq_of_lt (by omega) (by omega)
  rw [h3]
  omega

/-- C20 (amended): for every ring state whose sorted sequence lists the keys of `Nodes` and
every node `n` with an unregistered ID whose count `numReps * n.Weight`, computed in 64-bit
`int` arithmetic, is not positive (with `numReps = 160`: every weight from
-57646075230342348 to 0), `Add(n)` returns `true` and registers the ID while `Nodes` and
the sorted sequence stay as they were. -/
theorem C20_add_without_replicas (c : Consistent) (n : Node) (hok : RingOk c)
    (hnew : mapHas c.Resources n.ID = false) (hcount : replicaCount c n ≤ 0) :
    (Add c n).2 = true ∧ mapHas (Add c n).1.Resources n.ID = true ∧
    (Add c n).1.Nodes = c.Nodes ∧ (Add c n).1.ring = c.ring ∧
    (∀ k : Nat, k ∈ (Add c n).1.ring ↔ k ∈ c.ring) := by
  have hN : (Add c n).1.Nodes = c.Nodes := by
    rw [Add_of_new c n hnew]
    exact addLoop_of_nonpos n _ c.Nodes hcount
  have hr : (Add c n).1.ring = c.ring := by
    have h2 : c.ring = c.Nodes.keys.sort (· ≤ ·) := hok
    rw [Add_ring_of_new c n hnew, hN, ← h2]
  refine ⟨?_, mapHas_Add_self c n, hN, hr, ?_⟩
  · rw [Add_of_new c n hnew]
  · intro k
    rw [hr]

/-- C20 at a new ring and a node of weight 0: the node is registered and the ring stays
empty. -/
theorem C20_add_without_replicas_witness :
    (Add NewConsistent (NewNode 5 "172.18.1.5" 8080 "host_5" 0)).2 = true ∧
    mapHas (Add NewConsistent (NewNode 5 "172.18.1.5" 8080 "host_5" 0)).1.Resources 5 = true ∧
    (Add NewConsistent (NewNode 5 "172.18.1.5" 8080 "host_5" 0)).1.ring = [] :=
  have h := C20_add_without_replicas NewConsistent (NewNode 5 "172.18.1.5" 8080 "host_5" 0)
    Reachable.init.ringOk (mapHas_new_ring _) (by decide)
  ⟨h.1, h.2.1, h.2.2.2.1⟩

/-- C20 (counterexample): `negNode` has weight `1 - 2 ^ 62 <= 0` and an unregistered ID on a
new ring; the count `160 * Weight` wraps around to 160, so `Add` stores its entries: the
hash of its replica 0 becomes a key of `Nodes` and the ring is no longer empty. -/
theorem C20_counterexample :
    negNode.Weight ≤ 0 ∧ -(2 ^ 63) ≤ negNode.Weight ∧
    mapHas NewConsistent.Resources negNode.ID = false ∧
    (Add NewConsistent negNode).2 = true ∧
    mapHas NewConsistent.Nodes (virtualHash negNode 0) = false ∧
    Finmap.lookup (virtualHash negNode 0) (Add NewConsistent negNode).1.Nodes = some negNode ∧
    (Add NewConsistent negNode).1.Nodes ≠ NewConsistent.Nodes ∧
    (Add NewConsistent negNode).1.ring ≠ [] := by
  have hc : replicaCount NewConsistent negNode = 160 := by decide
  have hl : Finmap.lookup (virtualHash negNode 0) (Add NewConsistent negNode).1.Nodes
      = some negNode := by
    rw [lookup_Add _ _ (mapHas_new_ring _), hc, if_pos (mem_virtualHashes negNode 0 (by decide))]
  have hok : RingOk (Add NewConsistent negNode).1 := RingOk_Add _ _ Reachable.init.ringOk
  refine ⟨by decide, by decide, mapHas_new_ring _, ?_, ?_, hl, ?_, ?_⟩
  · rw [Add_of_new _ _ (mapHas_new_ring _)]
  · unfold mapHas NewConsistent
    rw [Finmap.lookup_empty]
    rfl
  · intro h
    rw [h] at hl
    have h0 : Finmap.lookup (virtualHash negNode 0) NewConsistent.Nodes = none :=
      Finmap.lookup_empty _
    rw [h0] at hl
    exact Option.noConfusion hl
  · have hmem : virtualHash negNode 0 ∈ (Add NewConsistent negNode).1.ring := by
      rw [hok.mem_ring]
      unfold mapHas
      rw [hl]
      rfl
    exact List.ne_nil_of_mem hmem

/-! ## Decimal representation -/

theorem digitChar_val : ∀ d : Nat, d < 10 → (Nat.digitChar d).toNat - 48 = d := by
  decide

theorem digitChar_ne_sep : ∀ d : Nat, d < 10 →
    Nat.digitChar d ≠ '-' ∧ Nat.digitChar d ≠ '*' := by
  decide

theorem IsDigit.ne_minus {c : Char} (h : IsDigit c) : c ≠ '-' := by
  obtain ⟨d, hd, rfl⟩ := h
  exact (digitChar_ne_sep d hd).1

theorem IsDigit.ne_star {c : Char} (h : IsDigit c) : c ≠ '*' := by
  obtain ⟨d, hd, rfl⟩ := h
  exact (digitChar_ne_sep d hd).2

theorem digitsVal_snoc (l : List Char) (d : Nat) (hd : d < 10) :
    digitsVal (l ++ [Nat.digitChar d]) = 10 * digitsVal l + d := by
  unfold digitsVal
  rw [List.foldl_append, List.foldl_cons, List.foldl_nil, digitChar_val d hd]

/-- The digits that `Nat.toDigitsCore` puts in front of its accumulator. -/
theorem toDigitsCore_spec : ∀ (fuel n : Nat), n < fuel →
    ∃ l : List Char, (∀ ds, Nat.toDigitsCore 10 fuel n ds = l ++ ds) ∧ l ≠ [] ∧
      (∀ c, c ∈ l → IsDigit c) ∧ digitsVal l = n := by
  intro fuel
  induction fuel with
  | zero =>
    intro n hn
    exact absurd hn (Nat.not_lt_zero _)
  | succ fuel ih =>
    intro n hn
    by_cases h0 : n / 10 = 0
    · refine ⟨[Nat.digitChar (n % 10)], ?_, List.cons_ne_nil _ _, ?_, ?_⟩
      · intro ds
        simp only [Nat.toDigitsCore, h0, if_true]
        rfl
      · intro c hc
        rw [List.mem_singleton] at hc
        exact ⟨n % 10, Nat.mod_lt _ (by decide), hc⟩
      · have h := digitsVal_snoc [] (n % 10) (Nat.mod_lt _ (by decide))
        rw [List.nil_append] at h
        rw [h]
        show 10 * 0 + n % 10 = n
        omega
    · obtain ⟨l, hl, _, hdig, hval⟩ := ih (n / 10) (by omega)
      refine ⟨l ++ [Nat.digitChar (n % 10)], ?_, ?_, ?_, ?_⟩
      · intro ds
        simp only [Nat.toDigitsCore, h0, if_false]
        rw [hl, List.append_assoc]
        rfl
      · intro h
        exact absurd (List.append_eq_nil.mp h).2 (List.cons_ne_nil _ _)
      · intro c hc
        rcases List.mem_append.mp hc with h | h
        · exact hdig c h
        · rw [List.mem_singleton] at h
          exact ⟨n % 10, Nat.mod_lt _ (by decide), h⟩
      · rw [digitsVal_snoc l (n % 10) (Nat.mod_lt _ (by decide)), hval]
        omega

/-- The characters of the decimal form of a natural number: a non-empty list of digits
that writes the number. -/
theorem repr_spec (n : Nat) :
    (Nat.repr n).data ≠ [] ∧ (∀ c, c ∈ (Nat.repr n).data → IsDigit c) ∧
      digitsVal (Nat.repr n).data = n := by
  obtain ⟨l, hl, hne, hdig, hval⟩ := toDigitsCore_spec (n + 1) n (Nat.lt_succ_self n)
  have h : (Nat.repr n).data = l := by
    show Nat.toDigitsCore 10 (n + 1) n [] = l
    rw [hl, List.append_nil]
  rw [h]
  exact ⟨hne, hdig, hval⟩

theorem Itoa_ofNat (m : Nat) : (Itoa (Int.ofNat m)).data = (Nat.repr m).data := rfl

theorem Itoa_negSucc (m : Nat) :
    (Itoa (Int.negSucc m)).data = '-' :: (Nat.repr (m + 1)).data := rfl

/-- The decimal form of an integer: an optional minus sign, then a non-empty list of digits. -/
theorem Itoa_shape (x : Int) :
    ∃ l : List Char, l ≠ [] ∧ (∀ c, c ∈ l → IsDigit c) ∧
      ((Itoa x).data = l ∨ (Itoa x).data = '-' :: l) := by
  cases x with
  | ofNat m =>
    obtain ⟨h1, h2, _⟩ := repr_spec m
    exact ⟨_, h1, h2, Or.inl (Itoa_ofNat m)⟩
  | negSucc m =>
    obtain ⟨h1, h2, _⟩ := repr_spec (m + 1)
    exact ⟨_, h1, h2, Or.inr (Itoa_negSucc m)⟩

theorem repr_data_inj (m k : Nat) (h : (Nat.repr m).data = (Nat.repr k).data) : m = k := by
  have h1 := (repr_spec m).2.2
  have h2 := (repr_spec k).2.2
  rw [h] at h1
  omega

theorem head_digit_ne_minus (l r : List Char) (hdig : ∀ c, c ∈ l → IsDigit c)
    (h : l = '-' :: r) : False := by
  have hmem : '-' ∈ l := by
    rw [h]
    exact List.mem_cons_self _ _
  exact (hdig _ hmem).ne_minus rfl

/-- The decimal form determines the integer. -/
theorem Itoa_data_inj (x y : Int) (h : (Itoa x).data = (Itoa y).data) : x = y := by
  cases x with
  | ofNat m =>
    cases y with
    | ofNat k =>
      rw [Itoa_ofNat, Itoa_ofNat] at h
      rw [repr_data_inj m k h]
    | negSucc k =>
      rw [Itoa_ofNat, Itoa_negSucc] at h
      exact (head_digit_ne_minus _ _ (repr_spec m).2.1 h).elim
  | negSucc m =>
    cases y with
    | ofNat k =>
      rw [Itoa_ofNat, Itoa_negSucc] at h
      exact (head_digit_ne_minus _ _ (repr_spec k).2.1 h.symm).elim
    | negSucc k =>
      rw [Itoa_negSucc, Itoa_negSucc] at h
      have h2 := repr_data_inj (m + 1) (k + 1) (List.cons.inj h).2
      have h3 : m = k := by omega
      rw [h3]

/-! ## Splitting a list at a separator -/

/-- Two lists cut at the first occurrence of a separator agree part by part. -/
theorem split_first {a : Char} : ∀ (l1 l2 r1 r2 : List Char), a ∉ l1 → a ∉ l2 →
    l1 ++ a :: r1 = l2 ++ a :: r2 → l1 = l2 ∧ r1 = r2 := by
  intro l1
  induction l1 with
  | nil =>
    intro l2 r1 r2 _ h2 h
    cases l2 with
    | nil => exact ⟨rfl, (List.cons.inj h).2⟩
    | cons y l2 =>
      have hy : a = y := (List.cons.inj h).1
      exact absurd (hy ▸ List.mem_cons_self _ _) h2
  | cons x l1 ih =>
    intro l2 r1 r2 h1 h2 h
    cases l2 with
    | nil =>
      have hx : x = a := (List.cons.inj h).1
      exact absurd (hx ▸ List.mem_cons_self _ _) h1
    | cons y l2 =>
      obtain ⟨hxy, hrest⟩ := List.cons.inj h
      obtain ⟨hl, hr⟩ := ih l2 r1 r2 (fun hm => h1 (List.mem_cons_of_mem _ hm))
        (fun hm => h2 (List.mem_cons_of_mem _ hm)) hrest
      exact ⟨by rw [hxy, hl], hr⟩

/-- Two lists cut at the last occurrence of a separator agree part by part. -/
theorem split_last {a : Char} (l1 l2 r1 r2 : List Char) (h1 : a ∉ r1) (h2 : a ∉ r2)
    (h : l1 ++ a :: r1 = l2 ++ a :: r2) : l1 = l2 ∧ r1 = r2 := by
  have hrev : r1.reverse ++ a :: l1.reverse = r2.reverse ++ a :: l2.reverse := by
    have := congrArg List.reverse h
    simpa using this
  obtain ⟨hr, hl⟩ := split_first r1.reverse r2.reverse l1.reverse l2.reverse
    (fun hm => h1 (List.mem_reverse.mp hm)) (fun hm => h2 (List.mem_reverse.mp hm)) hrev
  exact ⟨List.reverse_injective hl, List.reverse_injective hr⟩

/-- A decimal form followed by the separator `-` is cut off in only one way. -/
theorem split_Itoa (x y : Int) (r1 r2 : List Char)
    (h : (Itoa x).data ++ '-' :: r1 = (Itoa y).data ++ '-' :: r2) : x = y ∧ r1 = r2 := by
  obtain ⟨l1, hne1, hd1, hx⟩ := Itoa_shape x
  obtain ⟨l2, hne2, hd2, hy⟩ := Itoa_shape y
  have hn1 : '-' ∉ l1 := fun hm => (hd1 _ hm).ne_minus rfl
  have hn2 : '-' ∉ l2 := fun hm => (hd2 _ hm).ne_minus rfl
  have key : (Itoa x).data = (Itoa y).data ∧ r1 = r2 := by
    rcases hx with hx | hx <;> rcases hy with hy | hy
    · rw [hx, hy] at h ⊢
      exact split_first l1 l2 r1 r2 hn1 hn2 h
    · rw [hx, hy] at h
      cases l1 with
      | nil => exact absurd rfl hne1
      | cons c l1 =>
        have hc : c = '-' := (List.cons.inj h).1
        exact absurd hc (hd1 c (List.mem_cons_self _ _)).ne_minus
    · rw [hx, hy] at h
      cases l2 with
      | nil => exact absurd rfl hne2
      | cons c l2 =>
        have hc : '-' = c := (List.cons.inj h).1
        exact absurd hc.symm (hd2 c (List.mem_cons_self _ _)).ne_minus
    · rw [hx, hy] at h ⊢
      obtain ⟨hl, hr⟩ := split_first l1 l2 r1 r2 hn1 hn2 (List.cons.inj h).2
      exact ⟨by rw [hl], hr⟩
  exact ⟨Itoa_data_inj x y key.1, key.2⟩

theorem star_not_mem_Itoa (x : Int) : '*' ∉ (Itoa x).data := by
  obtain ⟨l, _, hd, hx⟩ := Itoa_shape x
  intro hm
  rcases hx with hx | hx
  · rw [hx] at hm
    exact (hd _ hm).ne_star rfl
  · rw [hx] at hm
    rcases List.mem_cons.mp hm with h | h
    · exact absurd h (by decide)
    · exact (hd _ h).ne_star rfl

/-- The characters of a virtual key. -/
theorem joinStr_data (i : Int) (n : Node) :
    (joinStr i n).data =
      n.IP.data ++ '*' :: ((Itoa n.Weight).data ++ '-' :: ((Itoa i).data ++
        '-' :: (Itoa n.ID).data)) := by
  unfold joinStr
  simp only [String.data_append, List.append_assoc]
  rfl

theorem joinStr_inj (i j : Int) (n m : Node) (h : joinStr i n = joinStr j m) :
    i = j ∧ n.IP = m.IP ∧ n.Weight = m.Weight ∧ n.ID = m.ID := by
  have hd := congrArg String.data h
  rw [joinStr_data, joinStr_data] at hd
  have hstar : ∀ (w k d : Int), '*' ∉ (Itoa w).data ++ '-' :: ((Itoa k).data ++
      '-' :: (Itoa d).data) := by
    intro w k d hm
    rcases List.mem_append.mp hm with h1 | h1
    · exact star_not_mem_Itoa w h1
    · rcases List.mem_cons.mp h1 with h2 | h2
      · exact absurd h2 (by decide)
      · rcases List.mem_append.mp h2 with h3 | h3
        · exact star_not_mem_Itoa k h3
        · rcases List.mem_cons.mp h3 with h4 | h4
          · exact absurd h4 (by decide)
          · exact star_not_mem_Itoa d h4
  obtain ⟨hip, hrest⟩ := split_last _ _ _ _ (hstar _ _ _) (hstar _ _ _) hd
  obtain ⟨hw, hrest2⟩ := split_Itoa _ _ _ _ hrest
  obtain ⟨hi, hrest3⟩ := split_Itoa _ _ _ _ hrest2
  exact ⟨hi, String.ext hip, hw, Itoa_data_inj _ _ hrest3⟩

/-- C18: `joinStr(i, n)` is `n.IP + "*" + Itoa(n.Weight) + "-" + Itoa(i) + "-" + Itoa(n.ID)`,
and two equal virtual keys have the same replica index and come from nodes with the same
IP, weight and ID, whatever the IP strings contain: replica indices or nodes that differ in
one of these never share a virtual key. -/
theorem C18_joinStr_injective (i j : Int) (n m : Node) (h : joinStr i n = joinStr j m) :
    joinStr i n = n.IP ++ "*" ++ Itoa n.Weight ++ "-" ++ Itoa i ++ "-" ++ Itoa n.ID ∧
    i = j ∧ n.IP = m.IP ∧ n.Weight = m.Weight ∧ n.ID = m.ID :=
  ⟨rfl, joinStr_inj i j n m h⟩

/-- C18 at replica 7 of `node0` and of a node with the same IP, weight and ID and another
port and host name: the two virtual keys are the same string. -/
theorem C18_joinStr_injective_witness :
    joinStr 7 node0 = joinStr 7 (NewNode 0 "172.18.1.0" 9090 "other" 1) ∧
    node0.IP = (NewNode 0 "172.18.1.0" 9090 "other" 1).IP :=
  ⟨rfl, (C18_joinStr_injective 7 7 node0 (NewNode 0 "172.18.1.0" 9090 "other" 1) rfl).2.2.1⟩

/-! ## Histories with matching `Remove` calls -/

theorem History.reachable {hist live : List Node} {c : Consistent} (h : History hist live c) :
    Reachable c := by
  induction h with
  | init => exact Reachable.init
  | add hist live c n _ _ ih => exact Reachable.add c n ih
  | addRegistered hist live c n _ _ ih => exact Reachable.add c n ih
  | remove hist live c n _ _ ih => exact Reachable.remove c n ih
  | removeUnknown hist live c n _ _ ih => exact Reachable.remove c n ih

theorem replicaCount_eq_new (c : Consistent) (n : Node) (hc : c.numReps = 160) :
    replicaCount c n = replicaCount NewConsistent n := by
  unfold replicaCount
  rw [hc]
  rfl

theorem mapHas_insert_iff (m : Finmap (fun _ : Int => Bool)) (k id : Int) (b : Bool) :
    mapHas (Finmap.insert k b m) id = true ↔ id = k ∨ mapHas m id = true := by
  rw [mapHas_iff_mem, mapHas_iff_mem, Finmap.mem_insert]

theorem mapHas_erase_iff (m : Finmap (fun _ : Int => Bool)) (k id : Int) :
    mapHas (Finmap.erase k m) id = true ↔ id ≠ k ∧ mapHas m id = true := by
  rw [mapHas_iff_mem, mapHas_iff_mem, Finmap.mem_erase]

theorem Remove_Resources_of_registered (c : Consistent) (n : Node)
    (hreg : mapHas c.Resources n.ID = true) :
    (Remove c n).Resources = Finmap.erase n.ID c.Resources := by
  rw [Remove_of_registered c n hreg]

/-- What a history keeps true: the registered values were added, `Resources` holds exactly
their IDs, no two of them share an ID, and every node bound in `Nodes` is one of them. -/
theorem History.inv {hist live : List Node} {c : Consistent} (h : History hist live c) :
    (∀ n, n ∈ live → n ∈ hist) ∧
    (∀ id : Int, mapHas c.Resources id = true ↔ ∃ n, n ∈ live ∧ n.ID = id) ∧
    (live.map Node.ID).Nodup ∧
    (∀ (k : Nat) (n : Node), Finmap.lookup k c.Nodes = some n → n ∈ live) := by
  induction h with
  | init =>
    refine ⟨fun n hn => absurd hn (List.not_mem_nil n), ?_, List.nodup_nil, ?_⟩
    · intro id
      rw [mapHas_new_ring]
      constructor
      · intro h
        exact Bool.noConfusion h
      · rintro ⟨n, hn, _⟩
        exact absurd hn (List.not_mem_nil n)
    · intro k n hk
      have h0 : Finmap.lookup k NewConsistent.Nodes = none := Finmap.lookup_empty k
      rw [h0] at hk
      exact Option.noConfusion hk
  | add hist live c n _ hnew ih =>
    obtain ⟨h1, h2, h3, h4⟩ := ih
    refine ⟨?_, ?_, ?_, ?_⟩
    · intro m hm
      rcases List.mem_cons.mp hm with rfl | hm
      · exact List.mem_cons_self _ _
      · exact List.mem_cons_of_mem _ (h1 m hm)
    · intro id
      rw [Add_Resources_of_new c n hnew, mapHas_insert_iff, h2 id]
      constructor
      · rintro (rfl | ⟨m, hm, rfl⟩)
        · exact ⟨n, List.mem_cons_self _ _, rfl⟩
        · exact ⟨m, List.mem_cons_of_mem _ hm, rfl⟩
      · rintro ⟨m, hm, rfl⟩
        rcases List.mem_cons.mp hm with rfl | hm
        · exact Or.inl rfl
        · exact Or.inr ⟨m, hm, rfl⟩
    · rw [List.map_cons, List.nodup_cons]
      refine ⟨?_, h3⟩
      intro hmem
      obtain ⟨m, hm, hid⟩ := List.mem_map.mp hmem
      have hreg := (h2 n.ID).mpr ⟨m, hm, hid⟩
      rw [hnew] at hreg
      exact Bool.noConfusion hreg
    · intro k m hk
      rw [lookup_Add c n hnew k] at hk
      by_cases hv : k ∈ virtualHashes n (replicaCount c n)
      · rw [if_pos hv] at hk
        rw [← Option.some.inj hk]
        exact List.mem_cons_self _ _
      · rw [if_neg hv] at hk
        exact List.mem_cons_of_mem _ (h4 k m hk)
  | addRegistered hist live c n _ hreg ih =>
    rw [Add_of_registered c n hreg]
    exact ih
  | remove hist live c n hh hn ih =>
    obtain ⟨h1, h2, h3, h4⟩ := ih
    have hreg : mapHas c.Resources n.ID = true := (h2 n.ID).mpr ⟨n, hn, rfl⟩
    have hnd : live.Nodup := List.Nodup.of_map _ h3
    have hinj := List.inj_on_of_nodup_map h3
    refine ⟨?_, ?_, ?_, ?_⟩
    · intro m hm
      exact h1 m (List.mem_of_mem_erase hm)
    · intro id
      rw [Remove_Resources_of_registered c n hreg, mapHas_erase_iff, h2 id]
      constructor
      · rintro ⟨hne, m, hm, rfl⟩
        refine ⟨m, (List.Nodup.mem_erase_iff hnd).mpr ⟨?_, hm⟩, rfl⟩
        intro hmn
        exact hne (by rw [hmn])
      · rintro ⟨m, hm, rfl⟩
        obtain ⟨hmn, hml⟩ := (List.Nodup.mem_erase_iff hnd).mp hm
        refine ⟨?_, m, hml, rfl⟩
        intro hid
        exact hmn (hinj hml hn hid)
    · exact List.Nodup.sublist (List.Sublist.map _ (List.erase_sublist n live)) h3
    · intro k m hk
      rw [lookup_Remove c n hreg k] at hk
      by_cases hv : k ∈ virtualHashes n (replicaCount c n)
      · rw [if_pos hv] at hk
        exact Option.noConfusion hk
      · rw [if_neg hv] at hk
        refine (List.Nodup.mem_erase_iff hnd).mpr ⟨?_, h4 k m hk⟩
        intro hmn
        rw [hmn] at hk
        exact hv (hh.reachable.stored k n hk)
  | removeUnknown hist live c n _ hnew ih =>
    rw [Remove_of_unknown c n hnew]
    exact ih

theorem CollisionFree.tail {n : Node} {hist : List Node} (h : CollisionFree (n :: hist)) :
    CollisionFree hist :=
  fun a b ha hb => h a b (List.mem_cons_of_mem _ ha) (List.mem_cons_of_mem _ hb)

/-- Under collision-freeness, two nodes ever added that share a virtual hash have the same
ID. -/
theorem CollisionFree.same_ID {hist : List Node} (hcf : CollisionFree hist) (a b : Node)
    (ha : a ∈ hist) (hb : b ∈ hist) (k : Nat)
    (hka : k ∈ virtualHashes a (replicaCount NewConsistent a))
    (hkb : k ∈ virtualHashes b (replicaCount NewConsistent b)) : a.ID = b.ID := by
  obtain ⟨i, hi0, hi, hki⟩ := (mem_virtualHashes_iff a _ k).mp hka
  obtain ⟨j, hj0, hj, hkj⟩ := (mem_virtualHashes_iff b _ k).mp hkb
  have hs := hcf a b ha hb i j hi0 hi hj0 hj (hki.symm.trans hkj)
  exact (joinStr_inj i j a b hs).2.2.2

/-- Under collision-freeness, every registered node owns all its virtual hashes. -/
theorem History.owns {hist live : List Node} {c : Consistent} (h : History hist live c)
    (hcf : CollisionFree hist) (n : Node) (hn : n ∈ live) (k : Nat)
    (hk : k ∈ virtualHashes n (replicaCount NewConsistent n)) :
    Finmap.lookup k c.Nodes = some n := by
  induction h generalizing n k with
  | init => exact absurd hn (List.not_mem_nil n)
  | add hist live c m hh hnew ih =>
    have hc : replicaCount c m = replicaCount NewConsistent m :=
      replicaCount_eq_new c m hh.reachable.numReps
    rw [lookup_Add c m hnew k, hc]
    rcases List.mem_cons.mp hn with rfl | hn
    · rw [if_pos hk]
    · have hne : n.ID ≠ m.ID := by
        intro hid
        have hreg := (hh.inv.2.1 m.ID).mpr ⟨n, hn, hid⟩
        rw [hnew] at hreg
        exact Bool.noConfusion hreg
      have hv : k ∉ virtualHashes m (replicaCount NewConsistent m) := by
        intro hv
        exact hne (hcf.same_ID n m (List.mem_cons_of_mem _ (hh.inv.1 n hn))
          (List.mem_cons_self _ _) k hk hv)
      rw [if_neg hv]
      exact ih hcf.tail n hn k hk
  | addRegistered hist live c m _ hreg ih =>
    rw [Add_of_registered c m hreg]
    exact ih hcf n hn k hk
  | remove hist live c m hh hm ih =>
    obtain ⟨h1, h2, h3, _⟩ := hh.inv
    have hreg : mapHas c.Resources m.ID = true := (h2 m.ID).mpr ⟨m, hm, rfl⟩
    have hnd : live.Nodup := List.Nodup.of_map _ h3
    obtain ⟨hnm, hnl⟩ := (List.Nodup.mem_erase_iff hnd).mp hn
    have hc : replicaCount c m = replicaCount NewConsistent m :=
      replicaCount_eq_new c m hh.reachable.numReps
    have hv : k ∉ virtualHashes m (replicaCount NewConsistent m) := by
      intro hv
      have hid := hcf.same_ID n m (h1 n hnl) (h1 m hm) k hk hv
      exact hnm (List.inj_on_of_nodup_map h3 hnl hm hid)
    rw [lookup_Remove c m hreg k, hc, if_neg hv]
    exact ih hcf n hnl k hk
  | removeUnknown hist live c m _ hnew ih =>
    rw [Remove_of_unknown c m hnew]
    exact ih hcf n hn k hk

/-- C16 (amended): in every state reached from `NewConsistent` by `Add` calls and by `Remove`
calls that pass the node value that was added, if `hashStr` is collision-free on the
virtual keys of all nodes ever added, then every registered node value has its ID in
`Resources` and all its virtual hashes are keys of `Nodes`, bound to it, while no virtual
hash of a node ever added whose ID is not in `Resources` is a key of `Nodes`. So for a node
ever added with at least one virtual key that is the registered value or whose ID is not
registered, the ID is in `Resources` if and only if all its virtual hashes are keys. -/
theorem C16_registry_ring_agreement (hist live : List Node) (c : Consistent)
    (h : History hist live c) (hcf : CollisionFree hist) :
    (∀ n, n ∈ live → mapHas c.Resources n.ID = true ∧
      ∀ i : Int, 0 ≤ i → i < replicaCount c n →
        Finmap.lookup (hashStr (joinStr i n)) c.Nodes = some n) ∧
    (∀ n, n ∈ hist → mapHas c.Resources n.ID = false →
      ∀ i : Int, 0 ≤ i → i < replicaCount c n →
        mapHas c.Nodes (hashStr (joinStr i n)) = false) ∧
    (∀ n, n ∈ hist → 0 < replicaCount c n →
      (n ∈ live ∨ mapHas c.Resources n.ID = false) →
      (mapHas c.Resources n.ID = true ↔
        ∀ i : Int, 0 ≤ i → i < replicaCount c n →
          mapHas c.Nodes (hashStr (joinStr i n)) = true)) := by
  obtain ⟨h1, h2, _, h4⟩ := h.inv
  have hcount : ∀ n, replicaCount c n = replicaCount NewConsistent n :=
    fun n => replicaCount_eq_new c n h.reachable.numReps
  have hA : ∀ n, n ∈ live → mapHas c.Resources n.ID = true ∧
      ∀ i : Int, 0 ≤ i → i < replicaCount c n →
        Finmap.lookup (hashStr (joinStr i n)) c.Nodes = some n := by
    intro n hn
    refine ⟨(h2 n.ID).mpr ⟨n, hn, rfl⟩, ?_⟩
    intro i hi0 hi
    rw [hcount] at hi
    exact h.owns hcf n hn _ (mem_virtual_of_int n _ i hi0 hi)
  have hB : ∀ n, n ∈ hist → mapHas c.Resources n.ID = false →
      ∀ i : Int, 0 ≤ i → i < replicaCount c n →
        mapHas c.Nodes (hashStr (joinStr i n)) = false := by
    intro n hn hun i hi0 hi
    rw [hcount] at hi
    cases hl : Finmap.lookup (hashStr (joinStr i n)) c.Nodes with
    | none =>
      unfold mapHas
      rw [hl]
      rfl
    | some m =>
      have hm : m ∈ live := h4 _ m hl
      have hkm := h.reachable.stored _ m hl
      rw [hcount] at hkm
      have hid := hcf.same_ID n m hn (h1 m hm) _ (mem_virtual_of_int n _ i hi0 hi) hkm
      have hreg := (h2 n.ID).mpr ⟨m, hm, hid.symm⟩
      rw [hun] at hreg
      exact Bool.noConfusion hreg
  refine ⟨hA, hB, ?_⟩
  intro n hn hpos hcase
  constructor
  · intro hreg i hi0 hi
    rcases hcase with hl | hun
    · unfold mapHas
      rw [(hA n hl).2 i hi0 hi]
      rfl
    · rw [hun] at hreg
      exact Bool.noConfusion hreg
  · intro hall
    by_contra hreg
    have hun : mapHas c.Resources n.ID = false := by simpa using hreg
    have hx := hB n hn hun 0 (le_refl 0) hpos
    rw [hall 0 (le_refl 0) hpos] at hx
    exact Bool.noConfusion hx

/-! ## Counting the entries of a node -/

theorem mem_bound (c : Consistent) (n : Node) (k : Nat) :
    k ∈ c.Nodes.keys.filter (fun k => Finmap.lookup k c.Nodes = some n) ↔
      Finmap.lookup k c.Nodes = some n := by
  rw [Finset.mem_filter, Finmap.mem_keys]
  exact ⟨fun h => h.2, fun h => ⟨Finmap.mem_of_lookup_eq_some h, h⟩⟩

theorem length_virtualHashes (n : Node) (count : Int) :
    (virtualHashes n count).length = count.toNat := by
  unfold virtualHashes
  rw [List.length_map, List.length_range]

/-- In a reachable state a node is bound to at most as many entries as its count. -/
theorem boundCount_le (c : Consistent) (n : Node) (h : Reachable c) :
    boundCount c n ≤ (replicaCount c n).toNat := by
  unfold boundCount
  have hsub : c.Nodes.keys.filter (fun k => Finmap.lookup k c.Nodes = some n) ⊆
      (virtualHashes n (replicaCount c n)).toFinset := by
    intro k hk
    rw [List.mem_toFinset]
    exact h.stored k n ((mem_bound c n k).mp hk)
  calc (c.Nodes.keys.filter (fun k => Finmap.lookup k c.Nodes = some n)).card
      ≤ (virtualHashes n (replicaCount c n)).toFinset.card := Finset.card_le_card hsub
    _ ≤ (virtualHashes n (replicaCount c n)).length := List.toFinset_card_le _
    _ = (replicaCount c n).toNat := length_virtualHashes n _

theorem nodup_virtualHashes {hist : List Node} (hcf : CollisionFree hist) (n : Node)
    (hn : n ∈ hist) : (virtualHashes n (replicaCount NewConsistent n)).Nodup := by
  unfold virtualHashes
  refine List.Nodup.map_on ?_ (List.nodup_range _)
  intro x hx y hy hxy
  rw [List.mem_range] at hx hy
  have hs := hcf n n hn hn (x : Int) (y : Int) (by omega) (by omega) (by omega) (by omega) hxy
  have := (joinStr_inj _ _ n n hs).1
  omega

/-- Under collision-freeness a registered node is bound to exactly as many entries as its
count. -/
theorem boundCount_eq {hist live : List Node} {c : Consistent} (h : History hist live c)
    (hcf : CollisionFree hist) (n : Node) (hn : n ∈ live) :
    boundCount c n = (replicaCount c n).toNat := by
  have hcount : replicaCount c n = replicaCount NewConsistent n :=
    replicaCount_eq_new c n h.reachable.numReps
  unfold boundCount
  have heq : c.Nodes.keys.filter (fun k => Finmap.lookup k c.Nodes = some n) =
      (virtualHashes n (replicaCount c n)).toFinset := by
    ext k
    rw [mem_bound, List.mem_toFinset]
    constructor
    · intro hk
      exact h.reachable.stored k n hk
    · intro hk
      rw [hcount] at hk
      exact h.owns hcf n hn k hk
  rw [heq, List.toFinset_card_of_nodup, length_virtualHashes]
  rw [hcount]
  exact nodup_virtualHashes hcf n (h.inv.1 n hn)

theorem wrapInt_le (x : Int) (hx : 0 ≤ x) : wrapInt x ≤ x := by
  unfold wrapInt
  omega

theorem wrapInt_eq (x : Int) (h0 : 0 ≤ x) (h1 : x < 2 ^ 63) : wrapInt x = x := by
  unfold wrapInt
  omega

/-- C15 (amended): in every state reached from `NewConsistent` by `Add` calls and by `Remove`
calls that pass the node value that was added, for every registered node `n` with weight
`w >= 1` the number of entries of `Nodes` bound to `n` is at most `numReps * w = 160 * w`,
and it is exactly `160 * w` whenever `160 * w` does not overflow the 64-bit `int`
(`w <= 57646075230342348`) and `hashStr` is collision-free on the virtual keys of all nodes
ever added. -/
theorem C15_replica_count (hist live : List Node) (c : Consistent) (n : Node)
    (h : History hist live c) (hn : n ∈ live) (hw : 1 ≤ n.Weight) :
    c.numReps = 160 ∧
    (boundCount c n : Int) ≤ c.numReps * n.Weight ∧
    (n.Weight ≤ 57646075230342348 → CollisionFree hist →
      (boundCount c n : Int) = c.numReps * n.Weight) := by
  have hnum : c.numReps = 160 := h.reachable.numReps
  have hle := boundCount_le c n h.reachable
  have hcount : replicaCount c n = wrapInt (160 * n.Weight) := by
    unfold replicaCount
    rw [hnum]
  rw [hnum]
  refine ⟨rfl, ?_, ?_⟩
  · have hwrap := wrapInt_le (160 * n.Weight) (by omega)
    omega
  · intro hw2 hcf
    have heq := boundCount_eq h hcf n hn
    have hexact := wrapInt_eq (160 * n.Weight) (by omega) (by omega)
    omega

/-! ## The histories of the rings of `main` -/

set_option maxRecDepth 1000000 in
/-- The 160 virtual hashes of `node0` are distinct. -/
theorem nodup_node0 : (virtualHashes node0 160).Nodup := by
  decide

set_option maxRecDepth 1000000 in
/-- The 160 virtual hashes of `node1` are distinct. -/
theorem nodup_node1 : (virtualHashes node1 160).Nodup := by
  decide

theorem joinStr_eq_of_nodup (n : Node) (hnd : (virtualHashes n 160).Nodup) (i j : Int)
    (hi0 : 0 ≤ i) (hi : i < 160) (hj0 : 0 ≤ j) (hj : j < 160)
    (h : hashStr (joinStr i n) = hashStr (joinStr j n)) : joinStr i n = joinStr j n := by
  have hnd2 : ((List.range 160).map (virtualHash n)).Nodup := hnd
  have hinj := List.inj_on_of_nodup_map hnd2
  rw [virtualHash_of_int n i hi0, virtualHash_of_int n j hj0] at h
  have hij := hinj (List.mem_range.mpr (show i.toNat < 160 by omega))
    (List.mem_range.mpr (show j.toNat < 160 by omega)) h
  have : i = j := by omega
  rw [this]

theorem collisionFree_node1_node0 : CollisionFree [node1, node0] := by
  intro a b ha hb i j hi0 hi hj0 hj h
  have h0 : replicaCount NewConsistent node0 = 160 := replicaCount_new_unit node0 rfl
  have h1 : replicaCount NewConsistent node1 = 160 := replicaCount_new_unit node1 rfl
  have hdis : ∀ x y : Int, 0 ≤ x → x < 160 → 0 ≤ y → y < 160 →
      hashStr (joinStr x node0) ≠ hashStr (joinStr y node1) := by
    intro x y hx0 hx hy0 hy he
    have hm := mem_virtual_of_int node1 160 y hy0 hy
    rw [← he] at hm
    exact disjoint_node0_node1 _ (mem_virtual_of_int node0 160 x hx0 hx) hm
  have ha2 : a = node1 ∨ a = node0 := by
    rcases List.mem_cons.mp ha with h | h
    · exact Or.inl h
    · exact Or.inr (List.mem_singleton.mp h)
  have hb2 : b = node1 ∨ b = node0 := by
    rcases List.mem_cons.mp hb with h | h
    · exact Or.inl h
    · exact Or.inr (List.mem_singleton.mp h)
  rcases ha2 with ha3 | ha3 <;> rcases hb2 with hb3 | hb3
  · rw [ha3] at hi h ⊢
    rw [hb3] at hj h ⊢
    rw [h1] at hi hj
    exact joinStr_eq_of_nodup node1 nodup_node1 i j hi0 hi hj0 hj h
  · rw [ha3] at hi h
    rw [hb3] at hj h
    rw [h1] at hi
    rw [h0] at hj
    exact absurd h.symm (hdis j i hj0 hj hi0 hi)
  · rw [ha3] at hi h
    rw [hb3] at hj h
    rw [h0] at hi
    rw [h1] at hj
    exact absurd h (hdis i j hi0 hi hj0 hj)
  · rw [ha3] at hi h ⊢
    rw [hb3] at hj h ⊢
    rw [h0] at hi hj
    exact joinStr_eq_of_nodup node0 nodup_node0 i j hi0 hi hj0 hj h

theorem history_ring0 : History [node0] [node0] ring0 :=
  History.add [] [] NewConsistent node0 History.init (mapHas_new_ring _)

theorem history_ring01 : History [node1, node0] [node1, node0] ring01 :=
  History.add [node0] [node0] ring0 node1 history_ring0 (mapHas_ring0_ne 1 (by decide))

/-- C15 at the ring of `main` with nodes 0 and 1: `node0` is bound to 160 entries. -/
theorem C15_replica_count_witness :
    ring01.numReps = 160 ∧ (boundCount ring01 node0 : Int) = ring01.numReps * node0.Weight :=
  have h := C15_replica_count [node1, node0] [node1, node0] ring01 node0 history_ring01
    (List.mem_cons_of_mem _ (List.mem_cons_self _ _)) (by decide)
  ⟨h.1, h.2.2 (by decide) collisionFree_node1_node0⟩

/-- C16 at the ring of `main` with nodes 0 and 1: `node0` is registered and its replica 7
is bound to it. -/
theorem C16_registry_ring_agreement_witness :
    mapHas ring01.Resources node0.ID = true ∧
    Finmap.lookup (hashStr (joinStr 7 node0)) ring01.Nodes = some node0 :=
  have h := (C16_registry_ring_agreement [node1, node0] [node1, node0] ring01 history_ring01
    collisionFree_node1_node0).1 node0 (List.mem_cons_of_mem _ (List.mem_cons_self _ _))
  ⟨h.1, h.2 7 (by decide) (by
    rw [replicaCount_of_unit ring01 node0 ring01_numReps rfl]
    decide)⟩

/-- C15 (counterexample): `overflowNode` has weight `57646075230342349 >= 1`; its count
`160 * Weight = 9223372036854775840` wraps around to a negative `int`, so `Add` registers
it without storing an entry: no entry is bound to it, although it has no virtual key on
which `hashStr` could collide. -/
theorem C15_counterexample :
    History [overflowNode] [overflowNode] (Add NewConsistent overflowNode).1 ∧
    1 ≤ overflowNode.Weight ∧ overflowNode.Weight < 2 ^ 63 ∧
    CollisionFree [overflowNode] ∧
    boundCount (Add NewConsistent overflowNode).1 overflowNode = 0 ∧
    (Add NewConsistent overflowNode).1.numReps * overflowNode.Weight = 9223372036854775840 ∧
    replicaCount NewConsistent overflowNode < 0 := by
  have hc : replicaCount NewConsistent overflowNode = -9223372036854775776 := by decide
  have hN : (Add NewConsistent overflowNode).1.Nodes = ∅ := by
    rw [Add_of_new _ _ (mapHas_new_ring _)]
    exact addLoop_of_nonpos overflowNode _ _ (by rw [hc]; decide)
  refine ⟨History.add [] [] NewConsistent overflowNode History.init (mapHas_new_ring _),
    by decide, by decide, ?_, ?_, ?_, by rw [hc]; decide⟩
  · intro a b ha _ i j hi0 hi _ _ _
    rw [List.mem_singleton.mp ha, hc] at hi
    omega
  · unfold boundCount
    rw [hN, Finmap.keys_empty, Finset.filter_empty, Finset.card_empty]
  · rw [Add_numReps]
    decide

theorem lookup_ringX : Finmap.lookup (virtualHash node0 7) ringX.Nodes = none := by
  have hcount : replicaCount (Add ring0 nodeX).1 nodeX = 160 :=
    replicaCount_of_unit _ _ ((Add_numReps _ _).trans ring0_numReps) rfl
  unfold ringX
  rw [lookup_Remove _ _ (mapHas_Add_self ring0 nodeX), hcount, ← collision_nodeX,
    if_pos (mem_virtualHashes nodeX 5 (by decide))]

theorem history_ringX : History [nodeX, node0] [node0] ringX := by
  have h1 : History [nodeX, node0] [nodeX, node0] (Add ring0 nodeX).1 :=
    History.add [node0] [node0] ring0 nodeX history_ring0 (mapHas_ring0_ne 2 (by decide))
  have h2 := History.remove [nodeX, node0] [nodeX, node0] (Add ring0 nodeX).1 nodeX h1
    (List.mem_cons_self _ _)
  have he : [nodeX, node0].erase nodeX = [node0] := by decide
  rw [he] at h2
  exact h2

/-- C16 (counterexample): after `Add(node0); Add(nodeX); Remove(nodeX)`, where every `Remove`
passes the node that was added, the ID of `node0` is in `Resources`, yet the hash of its
virtual key of replica 7 (shared with replica 5 of `nodeX`) is not a key of `Nodes`. -/
theorem C16_counterexample :
    History [nodeX, node0] [node0] ringX ∧
    mapHas ringX.Resources node0.ID = true ∧
    (7 : Int) < replicaCount ringX node0 ∧
    mapHas ringX.Nodes (hashStr (joinStr 7 node0)) = false := by
  refine ⟨history_ringX, ?_, ?_, ?_⟩
  · exact (history_ringX.inv.2.1 node0.ID).mpr ⟨node0, List.mem_singleton.mpr rfl, rfl⟩
  · rw [replicaCount_eq_new ringX node0 history_ringX.reachable.numReps,
      replicaCount_new_unit node0 rfl]
    decide
  · show mapHas ringX.Nodes (virtualHash node0 7) = false
    unfold mapHas
    rw [lookup_ringX]
    rfl

end Consistent
